import Mathlib

/-!
Verification development for the skiphash repository: a hash index unified
with a skip list, plus the range-consistency coordinator that batches
deferred physical unlinks behind in-flight range scans.

Modelling conventions, stated once:

* Keys and values are instantiated at `Nat` (the Go source is generic over
  `cmp.Ordered` keys and opaque values; only the total order on keys is
  used).
* Go pointers to nodes become `Nat` identifiers into an arena
  `store : Nat → Option NodeData`.  The two sentinel nodes `head` and
  `tail` get the reserved identifiers `0` and `1`; they carry no data and
  are never placed in the arena.
* The level-0 forward chain strung between the sentinels is kept as the
  list `chain : List Nat` in chain order.  The higher levels of the skip
  list are a search accelerator: every search loop of the source is
  embedded through its effect at level 0, which determines every
  observable result.  The per-node `height` drawn by `randomLevelLocked`
  is still recorded.
* The `sync.RWMutex` disappears: the embedding is the sequential
  (linearized) semantics of the code, each operation running atomically.
  The slow-path scan's two lock-protected phases, registration
  (`onRangeLocked`) and retirement (`afterRangeLocked`), are also exposed
  as separate steps of the operation alphabet `Op`, so that states with
  in-flight scans are reachable.
* The draws `rng.Float64() < 0.5` are prerecorded as a `List Bool`; an
  exhausted list means every further draw fails (yields `false`).
* Go `map`s become association lists.  The coordinator's `byVersion` map
  is the version-indexed view of its `ops` list (the source keeps the two
  containers in sync at every step), so it is not duplicated.
* The `uint64` version counter is modelled as `Nat` (it grows by at most
  one per operation, so 64-bit wraparound is unreachable in any feasible
  execution); the Go `int` size field becomes `Int`.
-/

namespace Skiphash

/-- Node of the ordered chain (`slNode` in the source).  `prev`/`next`
pointer arrays are represented by the position of the node's identifier in
the level-0 `chain` list of the container. -/
structure NodeData where
  key : Nat
  value : Nat
  height : Nat
  iTime : Nat
  rTime : Nat
  unstitched : Bool
  deriving DecidableEq

/-- Zero value used when an arena identifier misses (a Go nil dereference
would panic; well-formed states never look up a missing identifier). -/
def dummyNode : NodeData :=
  { key := 0, value := 0, height := 0, iTime := 0, rTime := 0, unstitched := false }

/-- In-flight range-scan record (`rangeOp` in the source).  The doubly
linked `prev`/`next` record pointers are represented by the position of
the record in the coordinator's `ops` list. -/
structure RangeOp where
  ver : Nat
  deferred : List Nat
  deriving DecidableEq

/-- Range coordinator (`rangeCoordinator` in the source).  `ops` is the
record list from `head` to `tail`; the `byVersion` map of the source is
its version-indexed view. -/
structure RangeCoordinator where
  counter : Nat
  ops : List RangeOp
  deriving DecidableEq

def newRangeCoordinator : RangeCoordinator :=
  { counter := 1, ops := [] }

/-- `onRangeLocked`: advance the counter, append a fresh record at the
tail, return its version. -/
def onRangeLocked (r : RangeCoordinator) : Nat × RangeCoordinator :=
  let v := r.counter + 1
  (v, { counter := v, ops := r.ops ++ [{ ver := v, deferred := [] }] })

/-- `onUpdateLocked`: the source returns the current counter value and
performs no mutation of the coordinator. -/
def onUpdateLocked (r : RangeCoordinator) : Nat :=
  r.counter

/-- The container (`SkipHash` in the source). -/
structure SkipHash where
  maxLevel : Nat
  fastPathTries : Nat
  rng : List Bool
  store : Nat → Option NodeData
  chain : List Nat
  index : List (Nat × Nat)
  len : Int
  rqc : RangeCoordinator
  nextId : Nat

def headId : Nat := 0

def tailId : Nat := 1

def DefaultMaxLevel : Nat := 20

def DefaultFastPathTries : Nat := 3

/-- Association-list lookup for the Go `map[K]*slNode` index. -/
def ilookup : List (Nat × Nat) → Nat → Option Nat
  | [], _ => none
  | p :: rest, k => if p.1 = k then some p.2 else ilookup rest k

/-- Association-list deletion for the Go `delete(index, key)`. -/
def ierase (l : List (Nat × Nat)) (k : Nat) : List (Nat × Nat) :=
  l.filter (fun p => p.1 != k)

/-- Dereference a node identifier. -/
def getNode (s : SkipHash) (id : Nat) : NodeData :=
  (s.store id).getD dummyNode

/-- Point update of the arena. -/
def upd (f : Nat → Option NodeData) (i : Nat) (d : NodeData) : Nat → Option NodeData :=
  fun j => if j = i then some d else f j

/-- `New`: fresh container.  `maxLevel = 0` plays the role of the
non-positive configuration values that the source normalizes to the
default. -/
def New (maxLevel fastPathTries : Nat) (rng : List Bool) : SkipHash :=
  { maxLevel := if maxLevel = 0 then DefaultMaxLevel else maxLevel
    fastPathTries := fastPathTries
    rng := rng
    store := fun _ => none
    chain := []
    index := []
    len := 0
    rqc := newRangeCoordinator
    nextId := 2 }

/-- `unstitchNodeLocked`: physically unlink a node.  The guards of the
source are kept verbatim: a nil pointer, a sentinel, or an already
unstitched node leaves the state unchanged.  The per-level pointer
surgery becomes removal of the identifier from the level-0 chain. -/
def unstitchNodeLocked (s : SkipHash) : Option Nat → SkipHash
  | none => s
  | some id =>
    if id = headId ∨ id = tailId then s
    else
      match s.store id with
      | none => s
      | some nd =>
        if nd.unstitched then s
        else { s with chain := s.chain.erase id
                      store := upd s.store id { nd with unstitched := true } }

/-- Unstitch the nodes of a drained `deferred` list in order. -/
def unstitchAll (s : SkipHash) (l : List Nat) : SkipHash :=
  l.foldl (fun t i => unstitchNodeLocked t (some i)) s

/-- `afterRemoveLocked`: with no in-flight scan, or when the node became
visible no earlier than the newest scan (`node.iTime >= tail.ver`),
unstitch immediately; otherwise append the node to the tail record's
deferred list. -/
def afterRemoveLocked (s : SkipHash) (id : Nat) : SkipHash :=
  match s.rqc.ops.getLast? with
  | none => unstitchNodeLocked s (some id)
  | some t =>
    if t.ver ≤ (getNode s id).iTime then unstitchNodeLocked s (some id)
    else { s with rqc := { s.rqc with
             ops := s.rqc.ops.dropLast ++ [{ t with deferred := t.deferred ++ [id] }] } }

/-- Unlink the record for version `v` from a record list whose head is
`pred :: rest` when the record is not the list head: the immediate
predecessor inherits the retired record's deferred list. -/
def retireNonHead (pred : RangeOp) : List RangeOp → Nat → List RangeOp
  | [], _ => [pred]
  | op :: rest, v =>
    if op.ver = v then { pred with deferred := pred.deferred ++ op.deferred } :: rest
    else pred :: retireNonHead op rest v

/-- Unlink the record for version `v`; the second component is the
deferred list to drain now (nonempty only when the oldest record
retires).  An unknown version leaves the list unchanged, like the failed
`byVersion` lookup of the source. -/
def retireOp : List RangeOp → Nat → List RangeOp × List Nat
  | [], _ => ([], [])
  | op :: rest, v =>
    if op.ver = v then (rest, op.deferred)
    else (retireNonHead op rest v, [])

/-- `afterRangeLocked`: retire the record for `v`, then unstitch every
node it still shielded when it was the oldest record. -/
def afterRangeLocked (s : SkipHash) (v : Nat) : SkipHash :=
  let r := retireOp s.rqc.ops v
  unstitchAll { s with rqc := { s.rqc with ops := r.1 } } r.2

/-- Loop body of `randomLevelLocked`, structurally recursive on the
remaining headroom `maxLevel - level` (positive fuel means
`level < maxLevel`). -/
def randomLevelGo : Nat → Nat → List Bool → Nat × List Bool
  | 0, level, rng => (level, rng)
  | fuel + 1, level, rng =>
    match rng with
    | [] => (level, [])
    | b :: rest =>
      if b then randomLevelGo fuel (level + 1) rest else (level, rest)

/-- `randomLevelLocked`: start at level 1 and increment while the draw
succeeds, capped at `maxLevel`; returns the height and the remaining
draws. -/
def randomLevelLocked (maxLevel : Nat) (level : Nat) (rng : List Bool) : Nat × List Bool :=
  randomLevelGo (maxLevel - level) level rng

/-- `lowerBoundLocked`: first node at level 0 with `key ≥ k`, ignoring
removal stamps; represented as the remaining suffix of the chain (an
empty suffix is the tail sentinel). -/
def lowerBoundLocked (s : SkipHash) (k : Nat) : List Nat :=
  s.chain.dropWhile (fun id => decide ((getNode s id).key < k))

/-- `firstLiveGELocked`: `lowerBoundLocked` followed by advancing along
level 0 until a live node (or the tail). -/
def firstLiveGELocked (s : SkipHash) (k : Nat) : List Nat :=
  (lowerBoundLocked s k).dropWhile (fun id => !((getNode s id).rTime == 0))

/-- Advance condition of `findInsertNeighborsLocked`: move past keys
below `k` and past tombstoned nodes carrying `k` itself. -/
def insertAdvance (s : SkipHash) (k : Nat) (id : Nat) : Bool :=
  decide ((getNode s id).key < k) ||
    ((getNode s id).key == k && !((getNode s id).rTime == 0))

/-- `findInsertNeighborsLocked` at level 0: the split of the chain at the
insertion point (predecessor prefix, successor suffix). -/
def findInsertNeighborsLocked (s : SkipHash) (k : Nat) : List Nat × List Nat :=
  (s.chain.takeWhile (insertAdvance s k), s.chain.dropWhile (insertAdvance s k))

/-- `insertNodeLocked`: draw a height, find the neighbors, allocate the
node stamped with `iTime = onUpdateLocked()` and `rTime = 0`, splice it
into the chain.  Returns the fresh identifier. -/
def insertNodeLocked (s : SkipHash) (k v : Nat) : Nat × SkipHash :=
  let lr := randomLevelLocked s.maxLevel 1 s.rng
  let ps := findInsertNeighborsLocked s k
  let id := s.nextId
  let nd : NodeData :=
    { key := k, value := v, height := lr.1, iTime := onUpdateLocked s.rqc
      rTime := 0, unstitched := false }
  (id, { s with store := upd s.store id nd
                chain := ps.1 ++ id :: ps.2
                rng := lr.2
                nextId := id + 1 })

/-- `Insert`: fail on a present key, otherwise insert a fresh node,
register it in the index and grow the size. -/
def Insert (s : SkipHash) (k v : Nat) : Bool × SkipHash :=
  match ilookup s.index k with
  | some _ => (false, s)
  | none =>
    let r := insertNodeLocked s k v
    (true, { r.2 with index := (k, r.1) :: r.2.index, len := r.2.len + 1 })

/-- `Store`: overwrite the value of a present key in place, otherwise
behave like `Insert`. -/
def Store (s : SkipHash) (k v : Nat) : Bool × SkipHash :=
  match ilookup s.index k with
  | some id =>
    (false, { s with store := upd s.store id { getNode s id with value := v } })
  | none =>
    let r := insertNodeLocked s k v
    (true, { r.2 with index := (k, r.1) :: r.2.index, len := r.2.len + 1 })

/-- `Remove`: drop the key from the index, stamp
`rTime = onUpdateLocked()`, hand the node to the coordinator, shrink the
size. -/
def Remove (s : SkipHash) (k : Nat) : Bool × SkipHash :=
  match ilookup s.index k with
  | none => (false, s)
  | some id =>
    let s1 : SkipHash :=
      { s with index := ierase s.index k
               store := upd s.store id { getNode s id with rTime := onUpdateLocked s.rqc } }
    let s2 := afterRemoveLocked s1 id
    (true, { s2 with len := s2.len - 1 })

/-- `Get`: value and present flag via the index. -/
def Get (s : SkipHash) (k : Nat) : Nat × Bool :=
  match ilookup s.index k with
  | none => (0, false)
  | some id => ((getNode s id).value, true)

/-- `Contains`. -/
def Contains (s : SkipHash) (k : Nat) : Bool :=
  (ilookup s.index k).isSome

/-- `Len`. -/
def Len (s : SkipHash) : Int :=
  s.len

/-- `isSafeLocked` on a non-sentinel node: visible at version `ver`.  The
sentinel branches of the source (`head`/`tail` are safe) are the loop
boundaries of the chain-list representation. -/
def isSafeLocked (nd : NodeData) (ver : Nat) : Bool :=
  decide (nd.iTime < ver) && (nd.rTime == 0 || decide (ver ≤ nd.rTime))

/-- `rangeFast`: with a positive retry budget the sequential semantics of
`TryRLock` always succeeds on the first attempt; walk from the lower
bound while `key ≤ high`, emitting live entries.  A zero budget gives up
to the slow path (`none`). -/
def rangeFast (s : SkipHash) (low high : Nat) : Option (List (Nat × Nat)) :=
  if 0 < s.fastPathTries then
    some ((((lowerBoundLocked s low).takeWhile
              (fun id => decide ((getNode s id).key ≤ high))).filter
            (fun id => (getNode s id).rTime == 0)).map
          (fun id => ((getNode s id).key, (getNode s id).value)))
  else none

/-- `nextSafeLocked`: advance along level 0 past nodes that are not safe
at `ver`; the tail sentinel is the end of the list. -/
def nextSafeLocked (s : SkipHash) (ver : Nat) (rest : List Nat) : List Nat :=
  rest.dropWhile (fun id => !(isSafeLocked (getNode s id) ver))

theorem dropWhile_length_le (p : α → Bool) (l : List α) :
    (l.dropWhile p).length ≤ l.length := by
  induction l with
  | nil => simp
  | cons a l ih =>
    by_cases h : p a
    · simp only [List.dropWhile_cons, h, if_true]
      exact Nat.le_trans ih (Nat.le_succ _)
    · simp [List.dropWhile_cons, h]

/-- One hop of the slow-path walk: stop at the tail or past `high`, emit
the node when it is included (the `node != head` conjunct of the source's
`include` holds for every chain node), continue from the next safe
node. -/
def scanStep (s : SkipHash) (ver high : Nat) : List Nat → List (Nat × Nat)
  | [] => []
  | id :: rest =>
    if high < (getNode s id).key then []
    else
      (if isSafeLocked (getNode s id) ver
       then [((getNode s id).key, (getNode s id).value)] else []) ++
        scanStep s ver high (nextSafeLocked s ver rest)
termination_by l => l.length
decreasing_by
  simp_wf
  have h := dropWhile_length_le (fun id => !(isSafeLocked (getNode s id) ver)) rest
  simp only [nextSafeLocked]
  omega

/-- `rangeSlow`: snapshot the start node, register the scan, walk, then
retire the scan. -/
def rangeSlow (s : SkipHash) (low high : Nat) : List (Nat × Nat) × SkipHash :=
  let start := firstLiveGELocked s low
  let vr := onRangeLocked s.rqc
  let s1 : SkipHash := { s with rqc := vr.2 }
  (scanStep s1 vr.1 high start, afterRangeLocked s1 vr.1)

/-- `Range`: empty on an inverted interval, else fast path with fallback
to the slow path. -/
def Range (s : SkipHash) (low high : Nat) : List (Nat × Nat) × SkipHash :=
  if high < low then ([], s)
  else
    match rangeFast s low high with
    | some entries => (entries, s)
    | none => rangeSlow s low high

/-- `RangeCount`: zero on an inverted interval, else one shared-lock walk
counting live keys in the interval. -/
def RangeCount (s : SkipHash) (low high : Nat) : Nat :=
  if high < low then 0
  else (((lowerBoundLocked s low).takeWhile
           (fun id => decide ((getNode s id).key ≤ high))).filter
         (fun id => (getNode s id).rTime == 0)).length

/-- Operation alphabet for reachability: the public mutators, the whole
`Range`, and the two coordinator phases of a slow-path scan taken as
separate steps (which is how they interleave with mutations in the
source). -/
inductive Op where
  | insert (k v : Nat)
  | store (k v : Nat)
  | remove (k : Nat)
  | rangeStart
  | rangeEnd (v : Nat)
  | range (low high : Nat)
  deriving DecidableEq

def step (s : SkipHash) : Op → SkipHash
  | .insert k v => (Insert s k v).2
  | .store k v => (Store s k v).2
  | .remove k => (Remove s k).2
  | .rangeStart => { s with rqc := (onRangeLocked s.rqc).2 }
  | .rangeEnd v => afterRangeLocked s v
  | .range low high => (Range s low high).2

def execOps (s : SkipHash) (l : List Op) : SkipHash :=
  l.foldl step s

/-- States reachable from a fresh container by any operation
interleaving. -/
def Reachable (s : SkipHash) : Prop :=
  ∃ ml ft rng l, execOps (New ml ft rng) l = s

/-- Visibility of a node to a scan registered at version `v` ("present at
version `v`"): inserted strictly before `v` and not removed strictly
before `v`. -/
def needed (nd : NodeData) (v : Nat) : Prop :=
  nd.iTime < v ∧ (nd.rTime = 0 ∨ v ≤ nd.rTime)

instance (nd : NodeData) (v : Nat) : Decidable (needed nd v) := by
  unfold needed; infer_instance

theorem upd_self (f : Nat → Option NodeData) (i : Nat) (d : NodeData) :
    upd f i d i = some d := by
  simp [upd]

theorem upd_ne (f : Nat → Option NodeData) (i j : Nat) (d : NodeData) (h : j ≠ i) :
    upd f i d j = f j := by
  simp [upd, h]

theorem ilookup_eq_none {l : List (Nat × Nat)} {k : Nat} :
    ilookup l k = none ↔ k ∉ l.map Prod.fst := by
  induction l with
  | nil => simp [ilookup]
  | cons p rest ih =>
    by_cases h : p.1 = k
    · simp [ilookup, h]
    · simp [ilookup, h, ih, Ne.symm h]

theorem ilookup_mem {l : List (Nat × Nat)} {k id : Nat}
    (h : ilookup l k = some id) : (k, id) ∈ l := by
  induction l with
  | nil => simp [ilookup] at h
  | cons p rest ih =>
    obtain ⟨a, b⟩ := p
    by_cases hp : a = k
    · subst hp
      simp [ilookup] at h
      subst h
      exact List.mem_cons_self _ _
    · simp only [ilookup, if_neg hp] at h
      exact List.mem_cons_of_mem _ (ih h)

theorem ierase_cons (p : Nat × Nat) (rest : List (Nat × Nat)) (k : Nat) :
    ierase (p :: rest) k = if p.1 = k then ierase rest k else p :: ierase rest k := by
  by_cases h : p.1 = k <;> simp [ierase, h]

theorem ilookup_ierase_self (l : List (Nat × Nat)) (k : Nat) :
    ilookup (ierase l k) k = none := by
  rw [ilookup_eq_none]
  intro hmem
  rcases List.mem_map.1 hmem with ⟨p, hp, hk⟩
  rcases List.mem_filter.1 hp with ⟨_, hne⟩
  simp [hk] at hne

theorem ilookup_ierase_ne (l : List (Nat × Nat)) (k k' : Nat) (h : k' ≠ k) :
    ilookup (ierase l k) k' = ilookup l k' := by
  induction l with
  | nil => rfl
  | cons p rest ih =>
    obtain ⟨a, b⟩ := p
    rw [ierase_cons]
    by_cases hpk : a = k
    · subst hpk
      have hne : ¬ a = k' := fun he => h (he ▸ rfl)
      simp only [if_pos rfl, ilookup, if_neg hne]
      exact ih
    · simp only [if_neg hpk, ilookup]
      by_cases hpk' : a = k'
      · simp [hpk']
      · simp only [if_neg hpk']
        exact ih

theorem ierase_keys_sublist (l : List (Nat × Nat)) (k : Nat) :
    List.Sublist ((ierase l k).map Prod.fst) (l.map Prod.fst) :=
  List.Sublist.map Prod.fst (List.filter_sublist l)

theorem ierase_length_nodup {l : List (Nat × Nat)} {k : Nat}
    (hnd : (l.map Prod.fst).Nodup) (hk : k ∈ l.map Prod.fst) :
    (ierase l k).length + 1 = l.length := by
  induction l with
  | nil => simp at hk
  | cons p rest ih =>
    simp only [List.map_cons, List.nodup_cons] at hnd
    rw [ierase_cons]
    by_cases hp : p.1 = k
    · have heq : ierase rest k = rest := by
        apply List.filter_eq_self.2
        intro q hq
        have hqm : q.1 ∈ rest.map Prod.fst := List.mem_map.2 ⟨q, hq, rfl⟩
        have hne : q.1 ≠ k := fun he => hnd.1 (hp ▸ he ▸ hqm)
        simpa using hne
      simp [if_pos hp, heq]
    · have hk' : k ∈ rest.map Prod.fst := by
        rcases List.mem_map.1 hk with ⟨q, hq, hqk⟩
        rcases List.mem_cons.1 hq with rfl | hq'
        · exact absurd hqk hp
        · exact List.mem_map.2 ⟨q, hq', hqk⟩
      have := ih hnd.2 hk'
      simp only [if_neg hp, List.length_cons]
      omega

theorem dropWhile_head_not {p : α → Bool} {l : List α} {a : α} {r : List α}
    (h : l.dropWhile p = a :: r) : p a = false := by
  have := List.head?_dropWhile_not p l
  rw [h] at this
  simpa using this

theorem getLast?_some {l : List α} {t : α} (h : l.getLast? = some t) :
    l = l.dropLast ++ [t] := by
  induction l with
  | nil => simp at h
  | cons a rest ih =>
    cases rest with
    | nil => simp_all
    | cons b r2 =>
      rw [List.getLast?_cons_cons] at h
      have := ih h
      simpa using this

theorem getLast?_mem {l : List α} {t : α} (h : l.getLast? = some t) : t ∈ l := by
  rw [getLast?_some h]
  simp

/-- In a version-sorted record list the tail record carries the maximal
version. -/
theorem sorted_getLast_max {l : List RangeOp} {t : RangeOp}
    (hs : l.Pairwise (fun a b => a.ver < b.ver)) (h : l.getLast? = some t) :
    ∀ q ∈ l, q.ver ≤ t.ver := by
  intro q hq
  rw [getLast?_some h] at hs hq
  rcases List.mem_append.1 hq with hq' | hq'
  · rcases List.pairwise_append.1 hs with ⟨_, _, hcross⟩
    exact Nat.le_of_lt (hcross q hq' t (List.mem_singleton_self t))
  · rcases List.mem_singleton.1 hq' with rfl
    exact Nat.le_refl _

/-- The well-formedness invariant of a container state.  It bundles the
data-model invariants of the specification together with the auxiliary
facts needed to push them through every operation. -/
structure WF (s : SkipHash) : Prop where
  fresh : ∀ id, s.nextId ≤ id → s.store id = none
  sent0 : s.store 0 = none
  sent1 : s.store 1 = none
  next2 : 2 ≤ s.nextId
  chain_mem : ∀ id ∈ s.chain, ∃ nd, s.store id = some nd ∧ nd.unstitched = false
  chain_nodup : s.chain.Nodup
  flag_chain : ∀ id nd, s.store id = some nd → nd.unstitched = false → id ∈ s.chain
  sorted : s.chain.Pairwise (fun a b => (getNode s a).key ≤ (getNode s b).key)
  idx_live : ∀ k id, ilookup s.index k = some id →
    ∃ nd, s.store id = some nd ∧ nd.rTime = 0 ∧ nd.key = k
  live_idx : ∀ id nd, s.store id = some nd → nd.rTime = 0 →
    ilookup s.index nd.key = some id
  idx_nodup : (s.index.map Prod.fst).Nodup
  len_eq : s.len = (s.index.length : Int)
  cnt_pos : 1 ≤ s.rqc.counter
  stamp_i : ∀ id nd, s.store id = some nd → nd.iTime ≤ s.rqc.counter
  stamp_r : ∀ id nd, s.store id = some nd → nd.rTime ≤ s.rqc.counter
  stamp_ir : ∀ id nd, s.store id = some nd → nd.rTime ≠ 0 → nd.iTime ≤ nd.rTime
  unst_r : ∀ id nd, s.store id = some nd → nd.unstitched = true → nd.rTime ≠ 0
  ops_sorted : s.rqc.ops.Pairwise (fun a b => a.ver < b.ver)
  ops_le : ∀ op ∈ s.rqc.ops, op.ver ≤ s.rqc.counter
  defer_r : ∀ op ∈ s.rqc.ops, ∀ x ∈ op.deferred,
    ∃ nd, s.store x = some nd ∧ nd.rTime ≠ 0
  defer_invis : ∀ op ∈ s.rqc.ops, ∀ x ∈ op.deferred, ∀ nd, s.store x = some nd →
    ∀ op2 ∈ s.rqc.ops, op.ver < op2.ver → ¬ needed nd op2.ver
  reach : ∀ op ∈ s.rqc.ops, ∀ id nd, s.store id = some nd →
    needed nd op.ver → id ∈ s.chain

theorem needed_congr {nd nd' : NodeData} (hi : nd'.iTime = nd.iTime)
    (hr : nd'.rTime = nd.rTime) (v : Nat) : needed nd' v ↔ needed nd v := by
  simp [needed, hi, hr]

theorem unstitch_cases (s : SkipHash) (id : Nat) :
    unstitchNodeLocked s (some id) = s ∨
    ∃ nd, s.store id = some nd ∧ nd.unstitched = false ∧ id ≠ headId ∧ id ≠ tailId ∧
      unstitchNodeLocked s (some id) =
        { s with chain := s.chain.erase id
                 store := upd s.store id { nd with unstitched := true } } := by
  by_cases hg : id = headId ∨ id = tailId
  · left
    simp [unstitchNodeLocked, hg]
  · push_neg at hg
    cases hst : s.store id with
    | none => left; simp [unstitchNodeLocked, hg.1, hg.2, hst]
    | some nd =>
      by_cases hu : nd.unstitched
      · left
        simp [unstitchNodeLocked, hg.1, hg.2, hst, hu]
      · right
        refine ⟨nd, rfl, by simpa using hu, hg.1, hg.2, ?_⟩
        simp [unstitchNodeLocked, hg.1, hg.2, hst, hu]

theorem unstitch_rqc (s : SkipHash) (t : Option Nat) :
    (unstitchNodeLocked s t).rqc = s.rqc := by
  rcases t with _ | id
  · rfl
  · rcases unstitch_cases s id with h | ⟨nd, _, _, _, _, h⟩ <;> rw [h]

theorem unstitch_index (s : SkipHash) (t : Option Nat) :
    (unstitchNodeLocked s t).index = s.index := by
  rcases t with _ | id
  · rfl
  · rcases unstitch_cases s id with h | ⟨nd, _, _, _, _, h⟩ <;> rw [h]

theorem unstitch_len (s : SkipHash) (t : Option Nat) :
    (unstitchNodeLocked s t).len = s.len := by
  rcases t with _ | id
  · rfl
  · rcases unstitch_cases s id with h | ⟨nd, _, _, _, _, h⟩ <;> rw [h]

theorem unstitch_store_eq_or (s : SkipHash) (i j : Nat) :
    (unstitchNodeLocked s (some i)).store j = s.store j ∨
    (j = i ∧ ∃ nd, s.store i = some nd ∧
      (unstitchNodeLocked s (some i)).store j = some { nd with unstitched := true }) := by
  rcases unstitch_cases s i with h | ⟨nd, hst, _, _, _, h⟩
  · left; rw [h]
  · by_cases hji : j = i
    · right
      exact ⟨hji, nd, hst, by rw [h, hji]; exact upd_self _ _ _⟩
    · left
      rw [h]
      exact upd_ne _ _ _ _ hji

/-- Data fields other than the unstitched flag survive an unstitch. -/
theorem unstitch_store_data {s : SkipHash} {t : Option Nat} {j : Nat} {nd' : NodeData}
    (h : (unstitchNodeLocked s t).store j = some nd') :
    ∃ nd, s.store j = some nd ∧ nd'.key = nd.key ∧ nd'.value = nd.value ∧
      nd'.iTime = nd.iTime ∧ nd'.rTime = nd.rTime ∧ nd'.height = nd.height := by
  rcases t with _ | i
  · exact ⟨nd', h, rfl, rfl, rfl, rfl, rfl⟩
  · rcases unstitch_store_eq_or s i j with he | ⟨rfl, nd, hst, hupd⟩
    · exact ⟨nd', he ▸ h, rfl, rfl, rfl, rfl, rfl⟩
    · rw [hupd] at h
      injection h with h
      exact ⟨nd, hst, by rw [← h], by rw [← h], by rw [← h], by rw [← h], by rw [← h]⟩

theorem unstitch_wf {s : SkipHash} {i : Nat} (hwf : WF s)
    (hsafe : ∀ nd, s.store i = some nd →
      nd.rTime ≠ 0 ∧ ∀ q ∈ s.rqc.ops, ¬ needed nd q.ver) :
    WF (unstitchNodeLocked s (some i)) := by
  rcases unstitch_cases s i with h | ⟨nd0, hst, hflag, hh, ht, h⟩
  · rw [h]; exact hwf
  rcases hsafe nd0 hst with ⟨hr0, hinvis⟩
  set nd1 : NodeData := { nd0 with unstitched := true } with hnd1
  have hstore : (unstitchNodeLocked s (some i)).store = upd s.store i nd1 := by rw [h]
  have hchain : (unstitchNodeLocked s (some i)).chain = s.chain.erase i := by rw [h]
  have hindex : (unstitchNodeLocked s (some i)).index = s.index := by rw [h]
  have hlen : (unstitchNodeLocked s (some i)).len = s.len := by rw [h]
  have hrqc : (unstitchNodeLocked s (some i)).rqc = s.rqc := by rw [h]
  have hnext : (unstitchNodeLocked s (some i)).nextId = s.nextId := by rw [h]
  have hilt : i < s.nextId := by
    by_contra hge
    rw [hwf.fresh i (Nat.le_of_not_lt hge)] at hst
    exact Option.noConfusion hst
  have hget : ∀ j, j ≠ i → getNode (unstitchNodeLocked s (some i)) j = getNode s j := by
    intro j hji
    rw [getNode, getNode, hstore, upd_ne _ _ _ _ hji]
  constructor
  case fresh =>
    intro j hj
    rw [hnext] at hj
    have hji : j ≠ i := fun he => absurd (he ▸ hj) (Nat.not_le_of_lt hilt)
    rw [hstore, upd_ne _ _ _ _ hji]
    exact hwf.fresh j hj
  case sent0 =>
    have : (0 : Nat) ≠ i := fun he => hh (he ▸ rfl)
    rw [hstore, upd_ne _ _ _ _ this]
    exact hwf.sent0
  case sent1 =>
    have : (1 : Nat) ≠ i := fun he => ht (he ▸ rfl)
    rw [hstore, upd_ne _ _ _ _ this]
    exact hwf.sent1
  case next2 => rw [hnext]; exact hwf.next2
  case chain_mem =>
    intro j hj
    rw [hchain] at hj
    have hji : j ≠ i := ((hwf.chain_nodup.mem_erase_iff).1 hj).1
    have hjc : j ∈ s.chain := ((hwf.chain_nodup.mem_erase_iff).1 hj).2
    rcases hwf.chain_mem j hjc with ⟨nd, hnd, hf⟩
    rw [hstore]
    exact ⟨nd, (upd_ne _ _ _ _ hji).trans hnd, hf⟩
  case chain_nodup => rw [hchain]; exact hwf.chain_nodup.erase i
  case flag_chain =>
    intro j nd hnd hf
    rw [hstore] at hnd
    rw [hchain]
    by_cases hji : j = i
    · subst hji
      rw [upd_self] at hnd
      injection hnd with hnd
      rw [← hnd] at hf
      simp [hnd1] at hf
    · rw [upd_ne _ _ _ _ hji] at hnd
      exact (List.mem_erase_of_ne hji).2 (hwf.flag_chain j nd hnd hf)
  case sorted =>
    rw [hchain]
    have hp := hwf.sorted.sublist (s.chain.erase_sublist i)
    refine hp.imp_of_mem ?_
    intro a b ha hb hr
    have hai : a ≠ i := ((hwf.chain_nodup.mem_erase_iff).1 ha).1
    have hbi : b ≠ i := ((hwf.chain_nodup.mem_erase_iff).1 hb).1
    rw [hget a hai, hget b hbi]
    exact hr
  case idx_live =>
    intro k id hl
    rw [hindex] at hl
    rcases hwf.idx_live k id hl with ⟨nd, hnd, hr, hk⟩
    have hidi : id ≠ i := by
      intro he
      rw [he, hst] at hnd
      injection hnd with hnd
      exact hr0 (by rw [← hnd] at hr; exact hr)
    rw [hstore]
    exact ⟨nd, (upd_ne _ _ _ _ hidi).trans hnd, hr, hk⟩
  case live_idx =>
    intro j nd hnd hr
    rw [hstore] at hnd
    rw [hindex]
    by_cases hji : j = i
    · subst hji
      rw [upd_self] at hnd
      injection hnd with hnd
      rw [← hnd] at hr
      exact absurd hr hr0
    · rw [upd_ne _ _ _ _ hji] at hnd
      exact hwf.live_idx j nd hnd hr
  case idx_nodup => rw [hindex]; exact hwf.idx_nodup
  case len_eq => rw [hlen, hindex]; exact hwf.len_eq
  case cnt_pos => rw [hrqc]; exact hwf.cnt_pos
  case stamp_i =>
    intro j nd hnd
    rw [hstore] at hnd
    rw [hrqc]
    by_cases hji : j = i
    · subst hji
      rw [upd_self] at hnd
      injection hnd with hnd
      rw [← hnd]
      exact hwf.stamp_i _ nd0 hst
    · rw [upd_ne _ _ _ _ hji] at hnd
      exact hwf.stamp_i j nd hnd
  case stamp_r =>
    intro j nd hnd
    rw [hstore] at hnd
    rw [hrqc]
    by_cases hji : j = i
    · subst hji
      rw [upd_self] at hnd
      injection hnd with hnd
      rw [← hnd]
      exact hwf.stamp_r _ nd0 hst
    · rw [upd_ne _ _ _ _ hji] at hnd
      exact hwf.stamp_r j nd hnd
  case stamp_ir =>
    intro j nd hnd hr
    rw [hstore] at hnd
    by_cases hji : j = i
    · subst hji
      rw [upd_self] at hnd
      injection hnd with hnd
      rw [← hnd] at hr ⊢
      exact hwf.stamp_ir _ nd0 hst hr
    · rw [upd_ne _ _ _ _ hji] at hnd
      exact hwf.stamp_ir j nd hnd hr
  case unst_r =>
    intro j nd hnd _
    rw [hstore] at hnd
    by_cases hji : j = i
    · subst hji
      rw [upd_self] at hnd
      injection hnd with hnd
      rw [← hnd]
      exact hr0
    · rw [upd_ne _ _ _ _ hji] at hnd
      exact hwf.unst_r j nd hnd (by assumption)
  case ops_sorted => rw [hrqc]; exact hwf.ops_sorted
  case ops_le => rw [hrqc]; exact hwf.ops_le
  case defer_r =>
    intro op hop x hx
    rw [hrqc] at hop
    rcases hwf.defer_r op hop x hx with ⟨nd, hnd, hr⟩
    rw [hstore]
    by_cases hxi : x = i
    · subst hxi
      rw [hst] at hnd
      injection hnd with hnd
      refine ⟨nd1, upd_self _ _ _, ?_⟩
      have : nd1.rTime = nd0.rTime := by simp [hnd1]
      rw [this]
      exact hr0
    · exact ⟨nd, (upd_ne _ _ _ _ hxi).trans hnd, hr⟩
  case defer_invis =>
    intro op hop x hx nd hnd op2 hop2 hlt
    rw [hrqc] at hop hop2
    rw [hstore] at hnd
    by_cases hxi : x = i
    · subst hxi
      rw [upd_self] at hnd
      injection hnd with hnd
      subst hnd
      exact hwf.defer_invis op hop _ hx nd0 hst op2 hop2 hlt
    · rw [upd_ne _ _ _ _ hxi] at hnd
      exact hwf.defer_invis op hop x hx nd hnd op2 hop2 hlt
  case reach =>
    intro op hop j nd hnd hneed
    rw [hrqc] at hop
    rw [hstore] at hnd
    rw [hchain]
    by_cases hji : j = i
    · subst hji
      rw [upd_self] at hnd
      injection hnd with hnd
      subst hnd
      exact absurd hneed (hinvis op hop)
    · rw [upd_ne _ _ _ _ hji] at hnd
      exact (List.mem_erase_of_ne hji).2 (hwf.reach op hop j nd hnd hneed)

theorem unstitchAll_wf {l : List Nat} {s : SkipHash} (hwf : WF s)
    (hsafe : ∀ x ∈ l, ∀ nd, s.store x = some nd →
      nd.rTime ≠ 0 ∧ ∀ q ∈ s.rqc.ops, ¬ needed nd q.ver) :
    WF (unstitchAll s l) := by
  induction l generalizing s with
  | nil => exact hwf
  | cons a l ih =>
    have h1 : WF (unstitchNodeLocked s (some a)) :=
      unstitch_wf hwf (hsafe a (List.mem_cons_self a l))
    refine ih h1 ?_
    intro x hx nd hnd
    rw [unstitch_rqc]
    rcases unstitch_store_data hnd with ⟨nd0, h0, _, _, hi, hr, _⟩
    rcases hsafe x (List.mem_cons_of_mem a hx) nd0 h0 with ⟨hrne, hinv⟩
    refine ⟨by rw [hr]; exact hrne, ?_⟩
    intro q hq
    rw [needed_congr hi hr]
    exact hinv q hq

theorem wf_new (ml ft : Nat) (rng : List Bool) : WF (New ml ft rng) := by
  constructor <;> simp [New, newRangeCoordinator, ilookup]

theorem wf_rangeStart {s : SkipHash} (hwf : WF s) :
    WF { s with rqc := (onRangeLocked s.rqc).2 } := by
  have hc : (onRangeLocked s.rqc).2.counter = s.rqc.counter + 1 := rfl
  have hops : (onRangeLocked s.rqc).2.ops =
      s.rqc.ops ++ [{ ver := s.rqc.counter + 1, deferred := [] }] := rfl
  constructor
  case fresh => exact hwf.fresh
  case sent0 => exact hwf.sent0
  case sent1 => exact hwf.sent1
  case next2 => exact hwf.next2
  case chain_mem => exact hwf.chain_mem
  case chain_nodup => exact hwf.chain_nodup
  case flag_chain => exact hwf.flag_chain
  case sorted => exact hwf.sorted
  case idx_live => exact hwf.idx_live
  case live_idx => exact hwf.live_idx
  case idx_nodup => exact hwf.idx_nodup
  case len_eq => exact hwf.len_eq
  case cnt_pos =>
    show 1 ≤ (onRangeLocked s.rqc).2.counter
    rw [hc]
    exact Nat.le_succ_of_le hwf.cnt_pos
  case stamp_i =>
    intro id nd hnd
    show nd.iTime ≤ (onRangeLocked s.rqc).2.counter
    rw [hc]
    exact Nat.le_succ_of_le (hwf.stamp_i id nd hnd)
  case stamp_r =>
    intro id nd hnd
    show nd.rTime ≤ (onRangeLocked s.rqc).2.counter
    rw [hc]
    exact Nat.le_succ_of_le (hwf.stamp_r id nd hnd)
  case stamp_ir => exact hwf.stamp_ir
  case unst_r => exact hwf.unst_r
  case ops_sorted =>
    show ((onRangeLocked s.rqc).2.ops).Pairwise _
    rw [hops]
    refine List.pairwise_append.2 ⟨hwf.ops_sorted, List.pairwise_singleton _ _, ?_⟩
    intro a ha b hb
    rcases List.mem_singleton.1 hb with rfl
    exact Nat.lt_succ_of_le (hwf.ops_le a ha)
  case ops_le =>
    intro op hop
    show op.ver ≤ (onRangeLocked s.rqc).2.counter
    rw [hc]
    rw [show ((onRangeLocked s.rqc).2.ops = s.rqc.ops ++
      [{ ver := s.rqc.counter + 1, deferred := [] }]) from rfl] at hop
    rcases List.mem_append.1 hop with h | h
    · exact Nat.le_succ_of_le (hwf.ops_le op h)
    · rcases List.mem_singleton.1 h with rfl
      exact Nat.le_refl _
  case defer_r =>
    intro op hop x hx
    rw [show ((onRangeLocked s.rqc).2.ops = s.rqc.ops ++
      [{ ver := s.rqc.counter + 1, deferred := [] }]) from rfl] at hop
    rcases List.mem_append.1 hop with h | h
    · exact hwf.defer_r op h x hx
    · rcases List.mem_singleton.1 h with rfl
      simp at hx
  case defer_invis =>
    intro op hop x hx nd hnd op2 hop2 hlt
    rw [show ((onRangeLocked s.rqc).2.ops = s.rqc.ops ++
      [{ ver := s.rqc.counter + 1, deferred := [] }]) from rfl] at hop hop2
    rcases List.mem_append.1 hop with h | h
    · rcases List.mem_append.1 hop2 with h2 | h2
      · exact hwf.defer_invis op h x hx nd hnd op2 h2 hlt
      · rcases List.mem_singleton.1 h2 with rfl
        rcases hwf.defer_r op h x hx with ⟨nd', hnd', hr'⟩
        rw [hnd] at hnd'
        injection hnd' with hnd'
        subst hnd'
        intro hneeded
        rcases hneeded.2 with h0 | hge
        · exact hr' h0
        · have h1 : s.rqc.counter + 1 ≤ nd.rTime := hge
          have h2 := hwf.stamp_r x nd hnd
          omega
    · rcases List.mem_singleton.1 h with rfl
      simp at hx
  case reach =>
    intro op hop id nd hnd hneed
    rw [show ((onRangeLocked s.rqc).2.ops = s.rqc.ops ++
      [{ ver := s.rqc.counter + 1, deferred := [] }]) from rfl] at hop
    rcases List.mem_append.1 hop with h | h
    · exact hwf.reach op h id nd hnd hneed
    · rcases List.mem_singleton.1 h with rfl
      have hr0 : nd.rTime = 0 := by
        rcases hneed.2 with h0 | hge
        · exact h0
        · have h1 : s.rqc.counter + 1 ≤ nd.rTime := hge
          have h2 := hwf.stamp_r id nd hnd
          omega
      have hflag : nd.unstitched = false := by
        by_contra hft
        rw [Bool.not_eq_false] at hft
        exact hwf.unst_r id nd hnd hft hr0
      exact hwf.flag_chain id nd hnd hflag

theorem retireNonHead_mem_ver {v : Nat} :
    ∀ {l : List RangeOp} {pred : RangeOp}, ∀ q ∈ retireNonHead pred l v,
      ∃ q0 ∈ pred :: l, q.ver = q0.ver := by
  intro l
  induction l with
  | nil =>
    intro pred q hq
    rcases List.mem_singleton.1 hq with rfl
    exact ⟨q, List.mem_cons_self _ _, rfl⟩
  | cons op rest ih =>
    intro pred q hq
    rw [retireNonHead] at hq
    by_cases hv : op.ver = v
    · rw [if_pos hv] at hq
      rcases List.mem_cons.1 hq with rfl | hq2
      · exact ⟨pred, List.mem_cons_self _ _, rfl⟩
      · exact ⟨q, List.mem_cons_of_mem _ (List.mem_cons_of_mem _ hq2), rfl⟩
    · rw [if_neg hv] at hq
      rcases List.mem_cons.1 hq with rfl | hq2
      · exact ⟨q, List.mem_cons_self _ _, rfl⟩
      · rcases ih q hq2 with ⟨q0, hq0, hv0⟩
        exact ⟨q0, List.mem_cons_of_mem _ hq0, hv0⟩

theorem retireNonHead_sorted {v : Nat} :
    ∀ {l : List RangeOp} {pred : RangeOp},
      (pred :: l).Pairwise (fun a b => a.ver < b.ver) →
      (retireNonHead pred l v).Pairwise (fun a b => a.ver < b.ver) := by
  intro l
  induction l with
  | nil =>
    intro pred _
    simp [retireNonHead]
  | cons op rest ih =>
    intro pred hs
    rcases List.pairwise_cons.1 hs with ⟨hpred, hs2⟩
    rw [retireNonHead]
    by_cases hv : op.ver = v
    · rw [if_pos hv]
      refine List.pairwise_cons.2 ⟨?_, (List.pairwise_cons.1 hs2).2⟩
      intro b hb
      exact hpred b (List.mem_cons_of_mem _ hb)
    · rw [if_neg hv]
      refine List.pairwise_cons.2 ⟨?_, ih hs2⟩
      intro b hb
      rcases retireNonHead_mem_ver b hb with ⟨q0, hq0, hveq⟩
      rw [hveq]
      exact hpred q0 hq0

theorem retireNonHead_defer {v : Nat} {D : Nat → Prop} :
    ∀ {l : List RangeOp} {pred : RangeOp},
      (∀ q ∈ pred :: l, ∀ x ∈ q.deferred, D x) →
      ∀ q ∈ retireNonHead pred l v, ∀ x ∈ q.deferred, D x := by
  intro l
  induction l with
  | nil =>
    intro pred hd q hq x hx
    rcases List.mem_singleton.1 hq with rfl
    exact hd q (List.mem_cons_self _ _) x hx
  | cons op rest ih =>
    intro pred hd q hq x hx
    rw [retireNonHead] at hq
    by_cases hv : op.ver = v
    · rw [if_pos hv] at hq
      rcases List.mem_cons.1 hq with rfl | hq2
      · rcases List.mem_append.1 hx with hx1 | hx2
        · exact hd pred (List.mem_cons_self _ _) x hx1
        · exact hd op (List.mem_cons_of_mem _ (List.mem_cons_self _ _)) x hx2
      · exact hd q (List.mem_cons_of_mem _ (List.mem_cons_of_mem _ hq2)) x hx
    · rw [if_neg hv] at hq
      rcases List.mem_cons.1 hq with rfl | hq2
      · exact hd q (List.mem_cons_self _ _) x hx
      · exact ih (fun q2 hq2b x2 hx2 => hd q2 (List.mem_cons_of_mem _ hq2b) x2 hx2) q hq2 x hx

theorem retireNonHead_invis {v : Nat} (Inv : Nat → Nat → Prop) :
    ∀ {l : List RangeOp} {pred : RangeOp},
      (pred :: l).Pairwise (fun a b => a.ver < b.ver) →
      (∀ q ∈ pred :: l, ∀ x ∈ q.deferred, ∀ q2 ∈ pred :: l, q.ver < q2.ver → Inv x q2.ver) →
      ∀ q ∈ retireNonHead pred l v, ∀ x ∈ q.deferred, ∀ q2 ∈ retireNonHead pred l v,
        q.ver < q2.ver → Inv x q2.ver := by
  intro l
  induction l with
  | nil =>
    intro pred _ _ q hq x _ q2 hq2 hlt
    rcases List.mem_singleton.1 hq with rfl
    rcases List.mem_singleton.1 hq2 with rfl
    exact absurd hlt (Nat.lt_irrefl _)
  | cons op rest ih =>
    intro pred hs hinv q hq x hx q2 hq2 hlt
    rcases List.pairwise_cons.1 hs with ⟨hpred, hs2⟩
    rcases List.pairwise_cons.1 hs2 with ⟨hop, _⟩
    rw [retireNonHead] at hq hq2
    by_cases hv : op.ver = v
    · rw [if_pos hv] at hq hq2
      rcases List.mem_cons.1 hq with rfl | hq'
      · rcases List.mem_cons.1 hq2 with rfl | hq2'
        · exact absurd hlt (Nat.lt_irrefl _)
        · rcases List.mem_append.1 hx with hx1 | hx2
          · exact hinv pred (List.mem_cons_self _ _) x hx1 q2
              (List.mem_cons_of_mem _ (List.mem_cons_of_mem _ hq2')) hlt
          · exact hinv op (List.mem_cons_of_mem _ (List.mem_cons_self _ _)) x hx2 q2
              (List.mem_cons_of_mem _ (List.mem_cons_of_mem _ hq2')) (hop q2 hq2')
      · rcases List.mem_cons.1 hq2 with rfl | hq2'
        · have h1 : pred.ver < q.ver := hpred q (List.mem_cons_of_mem _ hq')
          have h2 : q.ver < pred.ver := hlt
          omega
        · exact hinv q (List.mem_cons_of_mem _ (List.mem_cons_of_mem _ hq')) x hx q2
            (List.mem_cons_of_mem _ (List.mem_cons_of_mem _ hq2')) hlt
    · rw [if_neg hv] at hq hq2
      rcases List.mem_cons.1 hq with rfl | hq'
      · rcases List.mem_cons.1 hq2 with rfl | hq2'
        · exact absurd hlt (Nat.lt_irrefl _)
        · rcases retireNonHead_mem_ver q2 hq2' with ⟨q0, hq0, hveq⟩
          rw [hveq]
          rw [hveq] at hlt
          exact hinv q (List.mem_cons_self _ _) x hx q0 (List.mem_cons_of_mem _ hq0) hlt
      · rcases List.mem_cons.1 hq2 with rfl | hq2'
        · rcases retireNonHead_mem_ver q hq' with ⟨q0, hq0, hveq⟩
          rw [hveq] at hlt
          have h1 : q2.ver < q0.ver := hpred q0 hq0
          have h2 : q0.ver < q2.ver := hlt
          omega
        · exact ih hs2
            (fun qa hqa xa hxa qb hqb hab =>
              hinv qa (List.mem_cons_of_mem _ hqa) xa hxa qb (List.mem_cons_of_mem _ hqb) hab)
            q hq' x hx q2 hq2' hlt

/-- Replacing the coordinator record list preserves well-formedness when
the new list keeps sortedness, only reuses existing versions, and keeps
the deferred-node facts. -/
theorem wf_replace_ops {s : SkipHash} (hwf : WF s) (l : List RangeOp)
    (hsub : ∀ q ∈ l, ∃ q0 ∈ s.rqc.ops, q.ver = q0.ver)
    (hsort : l.Pairwise (fun a b => a.ver < b.ver))
    (hd : ∀ q ∈ l, ∀ x ∈ q.deferred, ∃ nd, s.store x = some nd ∧ nd.rTime ≠ 0)
    (hinv : ∀ q ∈ l, ∀ x ∈ q.deferred, ∀ nd, s.store x = some nd →
      ∀ q2 ∈ l, q.ver < q2.ver → ¬ needed nd q2.ver) :
    WF { s with rqc := { s.rqc with ops := l } } := by
  constructor
  case fresh => exact hwf.fresh
  case sent0 => exact hwf.sent0
  case sent1 => exact hwf.sent1
  case next2 => exact hwf.next2
  case chain_mem => exact hwf.chain_mem
  case chain_nodup => exact hwf.chain_nodup
  case flag_chain => exact hwf.flag_chain
  case sorted => exact hwf.sorted
  case idx_live => exact hwf.idx_live
  case live_idx => exact hwf.live_idx
  case idx_nodup => exact hwf.idx_nodup
  case len_eq => exact hwf.len_eq
  case cnt_pos => exact hwf.cnt_pos
  case stamp_i => exact hwf.stamp_i
  case stamp_r => exact hwf.stamp_r
  case stamp_ir => exact hwf.stamp_ir
  case unst_r => exact hwf.unst_r
  case ops_sorted => exact hsort
  case ops_le =>
    intro op hop
    rcases hsub op hop with ⟨q0, hq0, hveq⟩
    show op.ver ≤ s.rqc.counter
    rw [hveq]
    exact hwf.ops_le q0 hq0
  case defer_r => exact hd
  case defer_invis => exact hinv
  case reach =>
    intro op hop id nd hnd hneed
    rcases hsub op hop with ⟨q0, hq0, hveq⟩
    rw [hveq] at hneed
    exact hwf.reach q0 hq0 id nd hnd hneed

theorem wf_rangeEnd {s : SkipHash} (hwf : WF s) (v : Nat) :
    WF (afterRangeLocked s v) := by
  rw [afterRangeLocked]
  cases hops : s.rqc.ops with
  | nil =>
    have h1 : retireOp ([] : List RangeOp) v = ([], []) := rfl
    rw [h1]
    exact unstitchAll_wf
      (wf_replace_ops hwf []
        (by intro q hq; simp at hq)
        (List.Pairwise.nil)
        (by intro q hq; simp at hq)
        (by intro q hq; simp at hq))
      (by intro x hx; simp at hx)
  | cons op rest =>
    by_cases hv : op.ver = v
    · have h1 : retireOp (op :: rest) v = (rest, op.deferred) := by
        rw [retireOp, if_pos hv]
      rw [h1]
      have hrest : ∀ q ∈ rest, q ∈ s.rqc.ops := by
        intro q hq
        rw [hops]
        exact List.mem_cons_of_mem _ hq
      have hwf1 : WF { s with rqc := { s.rqc with ops := rest } } := by
        refine wf_replace_ops hwf rest
          (fun q hq => ⟨q, hrest q hq, rfl⟩)
          ?_
          (fun q hq => hwf.defer_r q (hrest q hq))
          (fun q hq x hx nd hnd q2 hq2 hlt =>
            hwf.defer_invis q (hrest q hq) x hx nd hnd q2 (hrest q2 hq2) hlt)
        have := hwf.ops_sorted
        rw [hops] at this
        exact (List.pairwise_cons.1 this).2
      refine unstitchAll_wf hwf1 ?_
      intro x hx nd hnd
      have hopmem : op ∈ s.rqc.ops := by rw [hops]; exact List.mem_cons_self _ _
      have hnd2 : s.store x = some nd := hnd
      rcases hwf.defer_r op hopmem x hx with ⟨nd0, hnd0, hr0⟩
      rw [hnd2] at hnd0
      injection hnd0 with he
      subst he
      have hsall := hwf.ops_sorted
      rw [hops] at hsall
      refine ⟨hr0, ?_⟩
      intro q hq
      have hq2 : q ∈ rest := hq
      have hlt : op.ver < q.ver := (List.pairwise_cons.1 hsall).1 q hq2
      exact hwf.defer_invis op hopmem x hx nd hnd2 q (hrest q hq2) hlt
    · have h1 : retireOp (op :: rest) v = (retireNonHead op rest v, []) := by
        rw [retireOp, if_neg hv]
      rw [h1]
      have hsall := hwf.ops_sorted
      rw [hops] at hsall
      refine unstitchAll_wf
        (wf_replace_ops hwf (retireNonHead op rest v)
          (fun q hq => by
            rcases retireNonHead_mem_ver q hq with ⟨q0, hq0, hveq⟩
            exact ⟨q0, by rw [hops]; exact hq0, hveq⟩)
          (retireNonHead_sorted hsall)
          (by
            refine retireNonHead_defer ?_
            intro q hq x hx
            exact hwf.defer_r q (by rw [hops]; exact hq) x hx)
          (by
            intro q hq x hx nd hnd q2 hq2 hlt
            refine retireNonHead_invis
              (fun x2 w => ∀ nd2, s.store x2 = some nd2 → ¬ needed nd2 w)
              hsall ?_ q hq x hx q2 hq2 hlt nd hnd
            intro qa hqa xa hxa qb hqb hab nda hnda
            exact hwf.defer_invis qa (by rw [hops]; exact hqa) xa hxa nda hnda qb
              (by rw [hops]; exact hqb) hab))
        (by intro x hx; simp at hx)

theorem getLast?_none {l : List α} (h : l.getLast? = none) : l = [] := by
  cases l with
  | nil => rfl
  | cons a rest =>
    exfalso
    revert a h
    induction rest with
    | nil => intro a h; simp at h
    | cons b r2 ih =>
      intro a h
      rw [List.getLast?_cons_cons] at h
      exact ih b h

theorem unstitch_len_comm (t : SkipHash) (x : Int) (o : Option Nat) :
    unstitchNodeLocked { t with len := x } o = { unstitchNodeLocked t o with len := x } := by
  rcases o with _ | id
  · rfl
  · by_cases hg : id = headId ∨ id = tailId
    · simp [unstitchNodeLocked, hg]
    · push_neg at hg
      cases hst : t.store id with
      | none => simp [unstitchNodeLocked, hg.1, hg.2, hst]
      | some nd =>
        by_cases hu : nd.unstitched
        · simp [unstitchNodeLocked, hg.1, hg.2, hst, hu]
        · simp [unstitchNodeLocked, hg.1, hg.2, hst, hu]

theorem afterRemove_len_comm (t : SkipHash) (x : Int) (id : Nat) :
    afterRemoveLocked { t with len := x } id = { afterRemoveLocked t id with len := x } := by
  have hlx : ({ t with len := x } : SkipHash).rqc.ops.getLast? = t.rqc.ops.getLast? := rfl
  cases hlast : t.rqc.ops.getLast? with
  | none =>
    have h1 : afterRemoveLocked t id = unstitchNodeLocked t (some id) := by
      rw [afterRemoveLocked, hlast]
    have h2 : afterRemoveLocked { t with len := x } id
        = unstitchNodeLocked { t with len := x } (some id) := by
      rw [afterRemoveLocked, hlx, hlast]
    rw [h1, h2, unstitch_len_comm]
  | some tl =>
    by_cases hc : tl.ver ≤ (getNode t id).iTime
    · have h1 : afterRemoveLocked t id = unstitchNodeLocked t (some id) := by
        rw [afterRemoveLocked, hlast]
        dsimp only
        rw [if_pos hc]
      have h2 : afterRemoveLocked { t with len := x } id
          = unstitchNodeLocked { t with len := x } (some id) := by
        rw [afterRemoveLocked, hlx, hlast]
        dsimp only
        rw [if_pos (show tl.ver ≤ (getNode { t with len := x } id).iTime from hc)]
      rw [h1, h2, unstitch_len_comm]
    · have h1 : afterRemoveLocked t id = { t with rqc := { t.rqc with
          ops := t.rqc.ops.dropLast ++ [{ tl with deferred := tl.deferred ++ [id] }] } } := by
        rw [afterRemoveLocked, hlast]
        dsimp only
        rw [if_neg hc]
      have h2 : afterRemoveLocked { t with len := x } id
          = { ({ t with len := x } : SkipHash) with rqc := { t.rqc with
          ops := t.rqc.ops.dropLast ++ [{ tl with deferred := tl.deferred ++ [id] }] } } := by
        rw [afterRemoveLocked, hlx, hlast]
        dsimp only
        rw [if_neg (show ¬ tl.ver ≤ (getNode { t with len := x } id).iTime from hc)]
      rw [h1, h2]

theorem afterRemove_len (t : SkipHash) (id : Nat) :
    (afterRemoveLocked t id).len = t.len := by
  rw [afterRemoveLocked]
  cases hlast : t.rqc.ops.getLast? with
  | none => exact unstitch_len t (some id)
  | some tl =>
    dsimp only
    by_cases hc : tl.ver ≤ (getNode t id).iTime
    · rw [if_pos hc]
      exact unstitch_len t (some id)
    · rw [if_neg hc]

/-- Well-formedness of the intermediate `Remove` state: index entry
dropped, removal stamp written, size decremented (before the coordinator
hand-off). -/
theorem wf_remove_mid {s : SkipHash} (hwf : WF s) {k id : Nat} {nd0 : NodeData}
    (hl : ilookup s.index k = some id) (hst : s.store id = some nd0) :
    WF { s with index := ierase s.index k
                store := upd s.store id { nd0 with rTime := s.rqc.counter }
                len := s.len - 1 } := by
  rcases hwf.idx_live k id hl with ⟨nd0b, hstb, hr0, hk0⟩
  rw [hst] at hstb
  injection hstb with he
  subst he
  have hflag0 : nd0.unstitched = false := by
    by_contra hft
    rw [Bool.not_eq_false] at hft
    exact hwf.unst_r id nd0 hst hft hr0
  have hidchain : id ∈ s.chain := hwf.flag_chain id nd0 hst hflag0
  set nd1 : NodeData := { nd0 with rTime := s.rqc.counter } with hnd1
  have hid0 : id ≠ 0 := by
    intro he
    rw [he, hwf.sent0] at hst
    exact Option.noConfusion hst
  have hid1 : id ≠ 1 := by
    intro he
    rw [he, hwf.sent1] at hst
    exact Option.noConfusion hst
  constructor
  case fresh =>
    intro j hj
    have hilt : id < s.nextId := by
      by_contra hge
      rw [hwf.fresh id (Nat.le_of_not_lt hge)] at hst
      exact Option.noConfusion hst
    have hji : j ≠ id := fun he => absurd (he ▸ hj) (Nat.not_le_of_lt hilt)
    show upd s.store id nd1 j = none
    rw [upd_ne _ _ _ _ hji]
    exact hwf.fresh j hj
  case sent0 =>
    show upd s.store id nd1 0 = none
    rw [upd_ne _ _ _ _ (Ne.symm hid0)]
    exact hwf.sent0
  case sent1 =>
    show upd s.store id nd1 1 = none
    rw [upd_ne _ _ _ _ (Ne.symm hid1)]
    exact hwf.sent1
  case next2 => exact hwf.next2
  case chain_mem =>
    intro j hj
    by_cases hji : j = id
    · subst hji
      exact ⟨nd1, upd_self _ _ _, hflag0⟩
    · rcases hwf.chain_mem j hj with ⟨nd, hnd, hf⟩
      exact ⟨nd, (upd_ne _ _ _ _ hji).trans hnd, hf⟩
  case chain_nodup => exact hwf.chain_nodup
  case flag_chain =>
    intro j nd hnd hf
    replace hnd : upd s.store id nd1 j = some nd := hnd
    by_cases hji : j = id
    · subst hji
      exact hidchain
    · rw [upd_ne _ _ _ _ hji] at hnd
      exact hwf.flag_chain j nd hnd hf
  case sorted =>
    refine hwf.sorted.imp_of_mem ?_
    intro a b _ _ hr
    have hkey : ∀ c, (getNode { s with index := ierase s.index k, store := upd s.store id nd1, len := s.len - 1 } c).key = (getNode s c).key := by
      intro c
      by_cases hci : c = id
      · subst hci
        show ((upd s.store c nd1 c).getD dummyNode).key = _
        rw [upd_self, getNode, hst]
        rfl
      · show ((upd s.store id nd1 c).getD dummyNode).key = _
        rw [upd_ne _ _ _ _ hci, getNode]
    rw [hkey a, hkey b]
    exact hr
  case idx_live =>
    intro k2 id2 hl2
    replace hl2 : ilookup (ierase s.index k) k2 = some id2 := hl2
    have hk2 : k2 ≠ k := by
      intro he
      rw [he, ilookup_ierase_self] at hl2
      exact Option.noConfusion hl2
    rw [ilookup_ierase_ne _ _ _ hk2] at hl2
    rcases hwf.idx_live k2 id2 hl2 with ⟨nd2, hnd2, hr2, hkk2⟩
    have hne : id2 ≠ id := by
      intro he
      rw [he, hst] at hnd2
      injection hnd2 with he2
      rw [← he2] at hkk2
      exact hk2 (hk0 ▸ hkk2 ▸ rfl)
    exact ⟨nd2, (upd_ne _ _ _ _ hne).trans hnd2, hr2, hkk2⟩
  case live_idx =>
    intro j nd hnd hr
    replace hnd : upd s.store id nd1 j = some nd := hnd
    show ilookup (ierase s.index k) nd.key = some j
    by_cases hji : j = id
    · subst hji
      rw [upd_self] at hnd
      injection hnd with he
      rw [← he] at hr
      have : nd1.rTime = s.rqc.counter := rfl
      rw [this] at hr
      exact absurd (hr ▸ hwf.cnt_pos) (by omega)
    · rw [upd_ne _ _ _ _ hji] at hnd
      have hold := hwf.live_idx j nd hnd hr
      have hkne : nd.key ≠ k := by
        intro he
        rw [he, hl] at hold
        injection hold with he2
        exact hji he2.symm
      rw [ilookup_ierase_ne _ _ _ hkne]
      exact hold
  case idx_nodup => exact hwf.idx_nodup.sublist (ierase_keys_sublist s.index k)
  case len_eq =>
    have hkmem : k ∈ s.index.map Prod.fst :=
      List.mem_map.2 ⟨(k, id), ilookup_mem hl, rfl⟩
    have := ierase_length_nodup hwf.idx_nodup hkmem
    have hle := hwf.len_eq
    show s.len - 1 = ((ierase s.index k).length : Int)
    omega
  case cnt_pos => exact hwf.cnt_pos
  case stamp_i =>
    intro j nd hnd
    replace hnd : upd s.store id nd1 j = some nd := hnd
    show nd.iTime ≤ s.rqc.counter
    by_cases hji : j = id
    · subst hji
      rw [upd_self] at hnd
      injection hnd with he
      rw [← he]
      exact hwf.stamp_i _ nd0 hst
    · rw [upd_ne _ _ _ _ hji] at hnd
      exact hwf.stamp_i j nd hnd
  case stamp_r =>
    intro j nd hnd
    replace hnd : upd s.store id nd1 j = some nd := hnd
    show nd.rTime ≤ s.rqc.counter
    by_cases hji : j = id
    · subst hji
      rw [upd_self] at hnd
      injection hnd with he
      rw [← he]
    · rw [upd_ne _ _ _ _ hji] at hnd
      exact hwf.stamp_r j nd hnd
  case stamp_ir =>
    intro j nd hnd hrne
    replace hnd : upd s.store id nd1 j = some nd := hnd
    by_cases hji : j = id
    · subst hji
      rw [upd_self] at hnd
      injection hnd with he
      rw [← he]
      exact hwf.stamp_i _ nd0 hst
    · rw [upd_ne _ _ _ _ hji] at hnd
      exact hwf.stamp_ir j nd hnd hrne
  case unst_r =>
    intro j nd hnd hft
    replace hnd : upd s.store id nd1 j = some nd := hnd
    by_cases hji : j = id
    · subst hji
      rw [upd_self] at hnd
      injection hnd with he
      rw [← he] at hft
      rw [show nd1.unstitched = nd0.unstitched from rfl] at hft
      rw [hflag0] at hft
      exact absurd hft (by simp)
    · rw [upd_ne _ _ _ _ hji] at hnd
      exact hwf.unst_r j nd hnd hft
  case ops_sorted => exact hwf.ops_sorted
  case ops_le => exact hwf.ops_le
  case defer_r =>
    intro op hop x hx
    rcases hwf.defer_r op hop x hx with ⟨nd, hnd, hrne⟩
    have hxi : x ≠ id := by
      intro he
      rw [he, hst] at hnd
      injection hnd with he2
      rw [← he2] at hrne
      exact hrne hr0
    exact ⟨nd, (upd_ne _ _ _ _ hxi).trans hnd, hrne⟩
  case defer_invis =>
    intro op hop x hx nd hnd op2 hop2 hlt
    rcases hwf.defer_r op hop x hx with ⟨ndb, hndb, hrne⟩
    have hxi : x ≠ id := by
      intro he
      rw [he, hst] at hndb
      injection hndb with he2
      rw [← he2] at hrne
      exact hrne hr0
    replace hnd : upd s.store id nd1 x = some nd := hnd
    rw [upd_ne _ _ _ _ hxi] at hnd
    exact hwf.defer_invis op hop x hx nd hnd op2 hop2 hlt
  case reach =>
    intro op hop j nd hnd hneed
    replace hnd : upd s.store id nd1 j = some nd := hnd
    by_cases hji : j = id
    · subst hji
      exact hidchain
    · rw [upd_ne _ _ _ _ hji] at hnd
      exact hwf.reach op hop j nd hnd hneed

theorem wf_remove {s : SkipHash} (hwf : WF s) (k : Nat) : WF (Remove s k).2 := by
  rw [Remove]
  cases hl : ilookup s.index k with
  | none => exact hwf
  | some id =>
    have hex : ∃ nd0, s.store id = some nd0 := by
      rcases hwf.idx_live k id hl with ⟨nd0, hst, _, _⟩
      exact ⟨nd0, hst⟩
    rcases hex with ⟨nd0, hst⟩
    have hgn : getNode s id = nd0 := by rw [getNode, hst]; rfl
    rcases hwf.idx_live k id hl with ⟨nd0b, hstb, hr0, hk0⟩
    rw [hst] at hstb
    injection hstb with he
    subst he
    set s1 : SkipHash := { s with index := ierase s.index k, store := upd s.store id { getNode s id with rTime := onUpdateLocked s.rqc } } with hs1
    show WF { afterRemoveLocked s1 id with len := (afterRemoveLocked s1 id).len - 1 }
    have hlen1 : (afterRemoveLocked s1 id).len = s.len := (afterRemove_len s1 id).trans rfl
    have hgoal1 : ({ afterRemoveLocked s1 id with len := (afterRemoveLocked s1 id).len - 1 } : SkipHash) = { afterRemoveLocked s1 id with len := s.len - 1 } := by rw [hlen1]
    have hgoal2 : ({ afterRemoveLocked s1 id with len := s.len - 1 } : SkipHash) = afterRemoveLocked { s1 with len := s.len - 1 } id := (afterRemove_len_comm s1 (s.len - 1) id).symm
    rw [hgoal1, hgoal2]
    have hs1eq : ({ s1 with len := s.len - 1 } : SkipHash) = { s with index := ierase s.index k, store := upd s.store id { nd0 with rTime := s.rqc.counter }, len := s.len - 1 } := by
      rw [hs1, hgn]
      rfl
    rw [hs1eq]
    have hmid : WF { s with index := ierase s.index k, store := upd s.store id { nd0 with rTime := s.rqc.counter }, len := s.len - 1 } := wf_remove_mid hwf hl hst
    set s2 : SkipHash := { s with index := ierase s.index k, store := upd s.store id { nd0 with rTime := s.rqc.counter }, len := s.len - 1 } with hs2
    have hst2 : s2.store id = some { nd0 with rTime := s.rqc.counter } := upd_self _ _ _
    have hit : (getNode s2 id).iTime = nd0.iTime := by
      rw [getNode, hst2]
      rfl
    rw [afterRemoveLocked]
    cases hlast : s2.rqc.ops.getLast? with
    | none =>
      dsimp only
      refine unstitch_wf hmid ?_
      intro nd hnd
      rw [hst2] at hnd
      injection hnd with he
      subst he
      have hopsnil : s2.rqc.ops = [] := getLast?_none hlast
      constructor
      · show s.rqc.counter ≠ 0
        have := hwf.cnt_pos
        omega
      · intro q hq
        rw [hopsnil] at hq
        simp at hq
    | some tl =>
      dsimp only
      by_cases hc : tl.ver ≤ (getNode s2 id).iTime
      · rw [if_pos hc]
        refine unstitch_wf hmid ?_
        intro nd hnd
        rw [hst2] at hnd
        injection hnd with he
        subst he
        constructor
        · show s.rqc.counter ≠ 0
          have := hwf.cnt_pos
          omega
        · intro q hq
          intro hneed
          have hqle : q.ver ≤ tl.ver := sorted_getLast_max hmid.ops_sorted hlast q hq
          have hi : nd0.iTime < q.ver := hneed.1
          rw [hit] at hc
          omega
      · rw [if_neg hc]
        have hsplit : s2.rqc.ops = s2.rqc.ops.dropLast ++ [tl] := getLast?_some hlast
        have htlmem : tl ∈ s2.rqc.ops := getLast?_mem hlast
        have hdmem : ∀ q ∈ s2.rqc.ops.dropLast, q ∈ s2.rqc.ops := by
          intro q hq
          rw [hsplit]
          exact List.mem_append.2 (Or.inl hq)
        have hmax : ∀ q ∈ s2.rqc.ops, q.ver ≤ tl.ver :=
          sorted_getLast_max hmid.ops_sorted hlast
        have hpair : (s2.rqc.ops.dropLast ++ [tl]).Pairwise (fun a b => a.ver < b.ver) := by
          have h := hmid.ops_sorted
          exact hsplit ▸ h
        have hsdrop : (s2.rqc.ops.dropLast).Pairwise (fun a b => a.ver < b.ver) :=
          (List.pairwise_append.1 hpair).1
        have hcross : ∀ a ∈ s2.rqc.ops.dropLast, a.ver < tl.ver := by
          intro a ha
          exact (List.pairwise_append.1 hpair).2.2 a ha tl (List.mem_singleton_self tl)
        refine wf_replace_ops hmid _ ?_ ?_ ?_ ?_
        · intro q hq
          rcases List.mem_append.1 hq with h2 | h2
          · exact ⟨q, hdmem q h2, rfl⟩
          · rcases List.mem_singleton.1 h2 with rfl
            exact ⟨tl, htlmem, rfl⟩
        · refine List.pairwise_append.2 ⟨?_, List.pairwise_singleton _ _, ?_⟩
          · exact hsdrop
          · intro a ha b hb
            rcases List.mem_singleton.1 hb with rfl
            show a.ver < tl.ver
            exact hcross a ha
        · intro q hq x hx
          rcases List.mem_append.1 hq with h2 | h2
          · exact hmid.defer_r q (hdmem q h2) x hx
          · rcases List.mem_singleton.1 h2 with rfl
            rcases List.mem_append.1 hx with h3 | h3
            · exact hmid.defer_r tl htlmem x h3
            · rcases List.mem_singleton.1 h3 with rfl
              refine ⟨{ nd0 with rTime := s.rqc.counter }, hst2, ?_⟩
              show s.rqc.counter ≠ 0
              have := hwf.cnt_pos
              omega
        · intro q hq x hx nd hnd q2 hq2 hlt
          rcases List.mem_append.1 hq2 with h2b | h2b
          · have hq2mem : q2 ∈ s2.rqc.ops := hdmem q2 h2b
            rcases List.mem_append.1 hq with h2a | h2a
            · exact hmid.defer_invis q (hdmem q h2a) x hx nd hnd q2 hq2mem hlt
            · rcases List.mem_singleton.1 h2a with rfl
              have h4 : q2.ver ≤ tl.ver := hmax q2 hq2mem
              have h5 : tl.ver < q2.ver := hlt
              omega
          · rcases List.mem_singleton.1 h2b with rfl
            rcases List.mem_append.1 hq with h2a | h2a
            · have h6 : tl.ver = ({ tl with deferred := tl.deferred ++ [id] } : RangeOp).ver := rfl
              have h7 : q.ver < tl.ver := hlt
              exact hmid.defer_invis q (hdmem q h2a) x hx nd hnd tl htlmem h7
            · rcases List.mem_singleton.1 h2a with rfl
              exact absurd hlt (Nat.lt_irrefl _)

theorem insertAdvance_key_le {s : SkipHash} {k x : Nat}
    (h : insertAdvance s k x = true) : (getNode s x).key ≤ k := by
  rw [insertAdvance] at h
  rcases Bool.or_eq_true_iff.1 h with h1 | h2
  · exact Nat.le_of_lt (of_decide_eq_true h1)
  · rcases Bool.and_eq_true_iff.1 h2 with ⟨h3, _⟩
    exact Nat.le_of_eq (eq_of_beq h3)

theorem insertAdvance_live_lt {s : SkipHash} {k x : Nat}
    (h : insertAdvance s k x = true) (hlive : (getNode s x).rTime = 0) :
    (getNode s x).key < k := by
  rw [insertAdvance] at h
  rcases Bool.or_eq_true_iff.1 h with h1 | h2
  · exact of_decide_eq_true h1
  · rcases Bool.and_eq_true_iff.1 h2 with ⟨_, h4⟩
    simp only [Bool.not_eq_eq_eq_not, Bool.not_true, beq_eq_false_iff_ne] at h4
    exact absurd hlive h4

theorem insertAdvance_false_ge {s : SkipHash} {k x : Nat}
    (h : insertAdvance s k x = false) : k ≤ (getNode s x).key := by
  rw [insertAdvance] at h
  rcases Bool.or_eq_false_iff.1 h with ⟨h1, _⟩
  exact Nat.le_of_not_lt (of_decide_eq_false h1)

theorem wf_insert {s : SkipHash} (hwf : WF s) (k v : Nat) : WF (Insert s k v).2 := by
  rw [Insert]
  cases hl : ilookup s.index k with
  | some id => exact hwf
  | none =>
    set lr := randomLevelLocked s.maxLevel 1 s.rng with hlr
    set TW := s.chain.takeWhile (insertAdvance s k) with hTW
    set DW := s.chain.dropWhile (insertAdvance s k) with hDW
    set nd : NodeData := { key := k, value := v, height := lr.1, iTime := s.rqc.counter, rTime := 0, unstitched := false } with hnd
    show WF { s with store := upd s.store s.nextId nd, chain := TW ++ s.nextId :: DW, rng := lr.2, nextId := s.nextId + 1, index := (k, s.nextId) :: s.index, len := s.len + 1 }
    have hchain : s.chain = TW ++ DW := (List.takeWhile_append_dropWhile (insertAdvance s k) s.chain).symm
    have hfree : s.store s.nextId = none := hwf.fresh s.nextId (Nat.le_refl _)
    have hnotchain : s.nextId ∉ s.chain := by
      intro hmem
      rcases hwf.chain_mem s.nextId hmem with ⟨nd2, hnd2, _⟩
      rw [hfree] at hnd2
      exact Option.noConfusion hnd2
    have hTWm : ∀ x ∈ TW, x ∈ s.chain := by
      intro x hx
      exact (List.takeWhile_sublist _).subset hx
    have hDWm : ∀ x ∈ DW, x ∈ s.chain := by
      intro x hx
      exact (List.dropWhile_sublist _).subset hx
    have hTWadv : ∀ x ∈ TW, insertAdvance s k x = true := by
      intro x hx
      exact List.mem_takeWhile_imp hx
    have hDWge : ∀ y ∈ DW, k ≤ (getNode s y).key := by
      intro y hy
      cases hDWe : DW with
      | nil => rw [hDWe] at hy; simp at hy
      | cons d rest =>
        have hdk : k ≤ (getNode s d).key := by
          have hne := dropWhile_head_not (hDW ▸ hDWe : s.chain.dropWhile (insertAdvance s k) = d :: rest)
          exact insertAdvance_false_ge hne
        rw [hDWe] at hy
        rcases List.mem_cons.1 hy with rfl | hy2
        · exact hdk
        · have hp : DW.Pairwise (fun a b => (getNode s a).key ≤ (getNode s b).key) := by
            refine hwf.sorted.sublist ?_
            rw [hDW]
            exact List.dropWhile_sublist _
          rw [hDWe] at hp
          have := (List.pairwise_cons.1 hp).1 y hy2
          exact Nat.le_trans hdk this
    have hgetF : ∀ x, x ≠ s.nextId →
        getNode { s with store := upd s.store s.nextId nd, chain := TW ++ s.nextId :: DW, rng := lr.2, nextId := s.nextId + 1, index := (k, s.nextId) :: s.index, len := s.len + 1 } x = getNode s x := by
      intro x hx
      show (upd s.store s.nextId nd x).getD dummyNode = _
      rw [upd_ne _ _ _ _ hx, getNode]
    have hgetid : getNode { s with store := upd s.store s.nextId nd, chain := TW ++ s.nextId :: DW, rng := lr.2, nextId := s.nextId + 1, index := (k, s.nextId) :: s.index, len := s.len + 1 } s.nextId = nd := by
      show (upd s.store s.nextId nd s.nextId).getD dummyNode = nd
      rw [upd_self]
      rfl
    constructor
    case fresh =>
      intro j hj
      replace hj : s.nextId + 1 ≤ j := hj
      have hji : j ≠ s.nextId := by omega
      show upd s.store s.nextId nd j = none
      rw [upd_ne _ _ _ _ hji]
      exact hwf.fresh j (by omega)
    case sent0 =>
      have h0 : (0 : Nat) ≠ s.nextId := by
        have := hwf.next2
        omega
      show upd s.store s.nextId nd 0 = none
      rw [upd_ne _ _ _ _ h0]
      exact hwf.sent0
    case sent1 =>
      have h1 : (1 : Nat) ≠ s.nextId := by
        have := hwf.next2
        omega
      show upd s.store s.nextId nd 1 = none
      rw [upd_ne _ _ _ _ h1]
      exact hwf.sent1
    case next2 =>
      show 2 ≤ s.nextId + 1
      have := hwf.next2
      omega
    case chain_mem =>
      intro j hj
      replace hj : j ∈ TW ++ s.nextId :: DW := hj
      by_cases hji : j = s.nextId
      · subst hji
        exact ⟨nd, upd_self _ _ _, rfl⟩
      · have hjold : j ∈ s.chain := by
          rw [hchain]
          rcases List.mem_append.1 hj with h2 | h2
          · exact List.mem_append.2 (Or.inl h2)
          · rcases List.mem_cons.1 h2 with he | h3
            · exact absurd he hji
            · exact List.mem_append.2 (Or.inr h3)
        rcases hwf.chain_mem j hjold with ⟨nd2, hnd2, hf2⟩
        exact ⟨nd2, (upd_ne _ _ _ _ hji).trans hnd2, hf2⟩
    case chain_nodup =>
      show (TW ++ s.nextId :: DW).Nodup
      rw [List.nodup_middle, List.nodup_cons]
      constructor
      · rw [← hchain]
        exact hnotchain
      · rw [← hchain]
        exact hwf.chain_nodup
    case flag_chain =>
      intro j nd2 hnd2 hf2
      replace hnd2 : upd s.store s.nextId nd j = some nd2 := hnd2
      show j ∈ TW ++ s.nextId :: DW
      by_cases hji : j = s.nextId
      · subst hji
        exact List.mem_append.2 (Or.inr (List.mem_cons_self _ _))
      · rw [upd_ne _ _ _ _ hji] at hnd2
        have := hwf.flag_chain j nd2 hnd2 hf2
        rw [hchain] at this
        rcases List.mem_append.1 this with h2 | h2
        · exact List.mem_append.2 (Or.inl h2)
        · exact List.mem_append.2 (Or.inr (List.mem_cons_of_mem _ h2))
    case sorted =>
      refine List.pairwise_append.2 ⟨?_, ?_, ?_⟩
      · have hp : TW.Pairwise (fun a b => (getNode s a).key ≤ (getNode s b).key) := by
          refine hwf.sorted.sublist ?_
          rw [hTW]
          exact List.takeWhile_sublist _
        refine hp.imp_of_mem ?_
        intro a b ha hb hr
        have hai : a ≠ s.nextId := fun he => hnotchain (he ▸ hTWm a ha)
        have hbi : b ≠ s.nextId := fun he => hnotchain (he ▸ hTWm b hb)
        rw [hgetF a hai, hgetF b hbi]
        exact hr
      · refine List.pairwise_cons.2 ⟨?_, ?_⟩
        · intro y hy
          have hyi : y ≠ s.nextId := fun he => hnotchain (he ▸ hDWm y hy)
          rw [hgetid, hgetF y hyi]
          show nd.key ≤ (getNode s y).key
          rw [hnd]
          exact hDWge y hy
        · have hp : DW.Pairwise (fun a b => (getNode s a).key ≤ (getNode s b).key) := by
            refine hwf.sorted.sublist ?_
            rw [hDW]
            exact List.dropWhile_sublist _
          refine hp.imp_of_mem ?_
          intro a b ha hb hr
          have hai : a ≠ s.nextId := fun he => hnotchain (he ▸ hDWm a ha)
          have hbi : b ≠ s.nextId := fun he => hnotchain (he ▸ hDWm b hb)
          rw [hgetF a hai, hgetF b hbi]
          exact hr
      · intro a ha b hb
        have hai : a ≠ s.nextId := fun he => hnotchain (he ▸ hTWm a ha)
        rw [hgetF a hai]
        rcases List.mem_cons.1 hb with rfl | hb2
        · rw [hgetid]
          show (getNode s a).key ≤ nd.key
          rw [hnd]
          exact insertAdvance_key_le (hTWadv a ha)
        · have hbi : b ≠ s.nextId := fun he => hnotchain (he ▸ hDWm b hb2)
          rw [hgetF b hbi]
          have hp := hwf.sorted
          rw [hchain] at hp
          exact (List.pairwise_append.1 hp).2.2 a ha b hb2
    case idx_live =>
      intro k2 id2 hl2
      replace hl2 : ilookup ((k, s.nextId) :: s.index) k2 = some id2 := hl2
      by_cases hk2 : k = k2
      · subst hk2
        rw [ilookup] at hl2
        rw [if_pos rfl] at hl2
        injection hl2 with he
        subst he
        exact ⟨nd, upd_self _ _ _, rfl, rfl⟩
      · rw [ilookup] at hl2
        rw [if_neg hk2] at hl2
        rcases hwf.idx_live k2 id2 hl2 with ⟨nd2, hnd2, hr2, hkk2⟩
        have hne : id2 ≠ s.nextId := by
          intro he
          rw [he, hfree] at hnd2
          exact Option.noConfusion hnd2
        exact ⟨nd2, (upd_ne _ _ _ _ hne).trans hnd2, hr2, hkk2⟩
    case live_idx =>
      intro j nd2 hnd2 hr2
      replace hnd2 : upd s.store s.nextId nd j = some nd2 := hnd2
      show ilookup ((k, s.nextId) :: s.index) nd2.key = some j
      by_cases hji : j = s.nextId
      · subst hji
        rw [upd_self] at hnd2
        injection hnd2 with he
        subst he
        rw [ilookup]
        rw [if_pos rfl]
      · rw [upd_ne _ _ _ _ hji] at hnd2
        have hold := hwf.live_idx j nd2 hnd2 hr2
        have hkne : ¬ k = nd2.key := by
          intro he
          rw [← he, hl] at hold
          exact Option.noConfusion hold
        rw [ilookup]
        rw [if_neg hkne]
        exact hold
    case idx_nodup =>
      show ((k, s.nextId) :: s.index).map Prod.fst |>.Nodup
      rw [List.map_cons, List.nodup_cons]
      exact ⟨ilookup_eq_none.1 hl, hwf.idx_nodup⟩
    case len_eq =>
      show s.len + 1 = (((k, s.nextId) :: s.index).length : Int)
      rw [List.length_cons]
      have := hwf.len_eq
      push_cast
      omega
    case cnt_pos => exact hwf.cnt_pos
    case stamp_i =>
      intro j nd2 hnd2
      replace hnd2 : upd s.store s.nextId nd j = some nd2 := hnd2
      show nd2.iTime ≤ s.rqc.counter
      by_cases hji : j = s.nextId
      · subst hji
        rw [upd_self] at hnd2
        injection hnd2 with he
        subst he
        exact Nat.le_refl _
      · rw [upd_ne _ _ _ _ hji] at hnd2
        exact hwf.stamp_i j nd2 hnd2
    case stamp_r =>
      intro j nd2 hnd2
      replace hnd2 : upd s.store s.nextId nd j = some nd2 := hnd2
      show nd2.rTime ≤ s.rqc.counter
      by_cases hji : j = s.nextId
      · subst hji
        rw [upd_self] at hnd2
        injection hnd2 with he
        subst he
        show (0 : Nat) ≤ s.rqc.counter
        omega
      · rw [upd_ne _ _ _ _ hji] at hnd2
        exact hwf.stamp_r j nd2 hnd2
    case stamp_ir =>
      intro j nd2 hnd2 hr2
      replace hnd2 : upd s.store s.nextId nd j = some nd2 := hnd2
      by_cases hji : j = s.nextId
      · subst hji
        rw [upd_self] at hnd2
        injection hnd2 with he
        subst he
        exact absurd rfl hr2
      · rw [upd_ne _ _ _ _ hji] at hnd2
        exact hwf.stamp_ir j nd2 hnd2 hr2
    case unst_r =>
      intro j nd2 hnd2 hf2
      replace hnd2 : upd s.store s.nextId nd j = some nd2 := hnd2
      by_cases hji : j = s.nextId
      · subst hji
        rw [upd_self] at hnd2
        injection hnd2 with he
        subst he
        exact absurd hf2 (by simp [hnd])
      · rw [upd_ne _ _ _ _ hji] at hnd2
        exact hwf.unst_r j nd2 hnd2 hf2
    case ops_sorted => exact hwf.ops_sorted
    case ops_le => exact hwf.ops_le
    case defer_r =>
      intro op hop x hx
      rcases hwf.defer_r op hop x hx with ⟨nd2, hnd2, hr2⟩
      have hne : x ≠ s.nextId := by
        intro he
        rw [he, hfree] at hnd2
        exact Option.noConfusion hnd2
      exact ⟨nd2, (upd_ne _ _ _ _ hne).trans hnd2, hr2⟩
    case defer_invis =>
      intro op hop x hx nd2 hnd2 op2 hop2 hlt
      replace hnd2 : upd s.store s.nextId nd x = some nd2 := hnd2
      rcases hwf.defer_r op hop x hx with ⟨nd3, hnd3, _⟩
      have hne : x ≠ s.nextId := by
        intro he
        rw [he, hfree] at hnd3
        exact Option.noConfusion hnd3
      rw [upd_ne _ _ _ _ hne] at hnd2
      exact hwf.defer_invis op hop x hx nd2 hnd2 op2 hop2 hlt
    case reach =>
      intro op hop j nd2 hnd2 hneed
      replace hnd2 : upd s.store s.nextId nd j = some nd2 := hnd2
      show j ∈ TW ++ s.nextId :: DW
      by_cases hji : j = s.nextId
      · subst hji
        exact List.mem_append.2 (Or.inr (List.mem_cons_self _ _))
      · rw [upd_ne _ _ _ _ hji] at hnd2
        have := hwf.reach op hop j nd2 hnd2 hneed
        rw [hchain] at this
        rcases List.mem_append.1 this with h2 | h2
        · exact List.mem_append.2 (Or.inl h2)
        · exact List.mem_append.2 (Or.inr (List.mem_cons_of_mem _ h2))

theorem wf_store {s : SkipHash} (hwf : WF s) (k v : Nat) : WF (Store s k v).2 := by
  rw [Store]
  cases hl : ilookup s.index k with
  | none =>
    have hins : WF (Insert s k v).2 := wf_insert hwf k v
    rw [Insert, hl] at hins
    exact hins
  | some id =>
    rcases hwf.idx_live k id hl with ⟨nd0, hst, hr0, hk0⟩
    have hgn : getNode s id = nd0 := by rw [getNode, hst]; rfl
    have hflag0 : nd0.unstitched = false := by
      by_contra hft
      rw [Bool.not_eq_false] at hft
      exact hwf.unst_r id nd0 hst hft hr0
    have hidchain : id ∈ s.chain := hwf.flag_chain id nd0 hst hflag0
    show WF { s with store := upd s.store id { getNode s id with value := v } }
    have hrw : ({ s with store := upd s.store id { getNode s id with value := v } } : SkipHash) = { s with store := upd s.store id { nd0 with value := v } } := by
      rw [hgn]
    rw [hrw]
    set ndv : NodeData := { nd0 with value := v } with hndv
    have hid0 : id ≠ 0 := by
      intro he
      rw [he, hwf.sent0] at hst
      exact Option.noConfusion hst
    have hid1 : id ≠ 1 := by
      intro he
      rw [he, hwf.sent1] at hst
      exact Option.noConfusion hst
    have hilt : id < s.nextId := by
      by_contra hge
      rw [hwf.fresh id (Nat.le_of_not_lt hge)] at hst
      exact Option.noConfusion hst
    constructor
    case fresh =>
      intro j hj
      replace hj : s.nextId ≤ j := hj
      have hji : j ≠ id := by omega
      show upd s.store id ndv j = none
      rw [upd_ne _ _ _ _ hji]
      exact hwf.fresh j hj
    case sent0 =>
      show upd s.store id ndv 0 = none
      rw [upd_ne _ _ _ _ (Ne.symm hid0)]
      exact hwf.sent0
    case sent1 =>
      show upd s.store id ndv 1 = none
      rw [upd_ne _ _ _ _ (Ne.symm hid1)]
      exact hwf.sent1
    case next2 => exact hwf.next2
    case chain_mem =>
      intro j hj
      replace hj : j ∈ s.chain := hj
      by_cases hji : j = id
      · subst hji
        exact ⟨ndv, upd_self _ _ _, hflag0⟩
      · rcases hwf.chain_mem j hj with ⟨nd2, hnd2, hf2⟩
        exact ⟨nd2, (upd_ne _ _ _ _ hji).trans hnd2, hf2⟩
    case chain_nodup => exact hwf.chain_nodup
    case flag_chain =>
      intro j nd2 hnd2 hf2
      replace hnd2 : upd s.store id ndv j = some nd2 := hnd2
      show j ∈ s.chain
      by_cases hji : j = id
      · subst hji
        exact hidchain
      · rw [upd_ne _ _ _ _ hji] at hnd2
        exact hwf.flag_chain j nd2 hnd2 hf2
    case sorted =>
      refine hwf.sorted.imp_of_mem ?_
      intro a b _ _ hr
      have hkey : ∀ c, (getNode { s with store := upd s.store id ndv } c).key = (getNode s c).key := by
        intro c
        by_cases hci : c = id
        · subst hci
          show ((upd s.store c ndv c).getD dummyNode).key = _
          rw [upd_self, getNode, hst]
          rfl
        · show ((upd s.store id ndv c).getD dummyNode).key = _
          rw [upd_ne _ _ _ _ hci, getNode]
      rw [hkey a, hkey b]
      exact hr
    case idx_live =>
      intro k2 id2 hl2
      replace hl2 : ilookup s.index k2 = some id2 := hl2
      rcases hwf.idx_live k2 id2 hl2 with ⟨nd2, hnd2, hr2, hkk2⟩
      by_cases hji : id2 = id
      · subst hji
        rw [hst] at hnd2
        injection hnd2 with he
        subst he
        refine ⟨ndv, upd_self _ _ _, hr2, hkk2⟩
      · exact ⟨nd2, (upd_ne _ _ _ _ hji).trans hnd2, hr2, hkk2⟩
    case live_idx =>
      intro j nd2 hnd2 hr2
      replace hnd2 : upd s.store id ndv j = some nd2 := hnd2
      show ilookup s.index nd2.key = some j
      by_cases hji : j = id
      · subst hji
        rw [upd_self] at hnd2
        injection hnd2 with he
        subst he
        show ilookup s.index nd0.key = some j
        exact hwf.live_idx _ nd0 hst hr0
      · rw [upd_ne _ _ _ _ hji] at hnd2
        exact hwf.live_idx j nd2 hnd2 hr2
    case idx_nodup => exact hwf.idx_nodup
    case len_eq => exact hwf.len_eq
    case cnt_pos => exact hwf.cnt_pos
    case stamp_i =>
      intro j nd2 hnd2
      replace hnd2 : upd s.store id ndv j = some nd2 := hnd2
      show nd2.iTime ≤ s.rqc.counter
      by_cases hji : j = id
      · subst hji
        rw [upd_self] at hnd2
        injection hnd2 with he
        subst he
        exact hwf.stamp_i _ nd0 hst
      · rw [upd_ne _ _ _ _ hji] at hnd2
        exact hwf.stamp_i j nd2 hnd2
    case stamp_r =>
      intro j nd2 hnd2
      replace hnd2 : upd s.store id ndv j = some nd2 := hnd2
      show nd2.rTime ≤ s.rqc.counter
      by_cases hji : j = id
      · subst hji
        rw [upd_self] at hnd2
        injection hnd2 with he
        subst he
        exact hwf.stamp_r _ nd0 hst
      · rw [upd_ne _ _ _ _ hji] at hnd2
        exact hwf.stamp_r j nd2 hnd2
    case stamp_ir =>
      intro j nd2 hnd2 hr2
      replace hnd2 : upd s.store id ndv j = some nd2 := hnd2
      by_cases hji : j = id
      · subst hji
        rw [upd_self] at hnd2
        injection hnd2 with he
        subst he
        exact hwf.stamp_ir _ nd0 hst hr2
      · rw [upd_ne _ _ _ _ hji] at hnd2
        exact hwf.stamp_ir j nd2 hnd2 hr2
    case unst_r =>
      intro j nd2 hnd2 hf2
      replace hnd2 : upd s.store id ndv j = some nd2 := hnd2
      by_cases hji : j = id
      · subst hji
        rw [upd_self] at hnd2
        injection hnd2 with he
        subst he
        exact absurd hf2 (by simp [hndv, hflag0])
      · rw [upd_ne _ _ _ _ hji] at hnd2
        exact hwf.unst_r j nd2 hnd2 hf2
    case ops_sorted => exact hwf.ops_sorted
    case ops_le => exact hwf.ops_le
    case defer_r =>
      intro op hop x hx
      rcases hwf.defer_r op hop x hx with ⟨nd2, hnd2, hr2⟩
      have hne : x ≠ id := by
        intro he
        rw [he, hst] at hnd2
        injection hnd2 with he2
        rw [← he2] at hr2
        exact hr2 hr0
      exact ⟨nd2, (upd_ne _ _ _ _ hne).trans hnd2, hr2⟩
    case defer_invis =>
      intro op hop x hx nd2 hnd2 op2 hop2 hlt
      replace hnd2 : upd s.store id ndv x = some nd2 := hnd2
      rcases hwf.defer_r op hop x hx with ⟨nd3, hnd3, hr3⟩
      have hne : x ≠ id := by
        intro he
        rw [he, hst] at hnd3
        injection hnd3 with he2
        rw [← he2] at hr3
        exact hr3 hr0
      rw [upd_ne _ _ _ _ hne] at hnd2
      exact hwf.defer_invis op hop x hx nd2 hnd2 op2 hop2 hlt
    case reach =>
      intro op hop j nd2 hnd2 hneed
      replace hnd2 : upd s.store id ndv j = some nd2 := hnd2
      show j ∈ s.chain
      by_cases hji : j = id
      · subst hji
        exact hidchain
      · rw [upd_ne _ _ _ _ hji] at hnd2
        exact hwf.reach op hop j nd2 hnd2 hneed

theorem rangeSlow_state (s : SkipHash) (low high : Nat) :
    (rangeSlow s low high).2
      = afterRangeLocked { s with rqc := (onRangeLocked s.rqc).2 } (onRangeLocked s.rqc).1 := rfl

theorem wf_range {s : SkipHash} (hwf : WF s) (low high : Nat) :
    WF (Range s low high).2 := by
  rw [Range]
  by_cases hlh : high < low
  · rw [if_pos hlh]
    exact hwf
  · rw [if_neg hlh]
    cases hrf : rangeFast s low high with
    | some es => exact hwf
    | none =>
      show WF (rangeSlow s low high).2
      rw [rangeSlow_state]
      exact wf_rangeEnd (wf_rangeStart hwf) _

theorem wf_step {s : SkipHash} (hwf : WF s) (o : Op) : WF (step s o) := by
  cases o with
  | insert k v => exact wf_insert hwf k v
  | store k v => exact wf_store hwf k v
  | remove k => exact wf_remove hwf k
  | rangeStart => exact wf_rangeStart hwf
  | rangeEnd v => exact wf_rangeEnd hwf v
  | range low high => exact wf_range hwf low high

theorem wf_execOps {s : SkipHash} (hwf : WF s) (l : List Op) : WF (execOps s l) := by
  induction l generalizing s with
  | nil => exact hwf
  | cons o rest ih => exact ih (wf_step hwf o)

/-- Every reachable state is well-formed. -/
theorem wf_reachable {s : SkipHash} (h : Reachable s) : WF s := by
  rcases h with ⟨ml, ft, rng, l, rfl⟩
  exact wf_execOps (wf_new ml ft rng) l

/-- Spec-side description of a range result ("returns keys in strictly
increasing order, each in the interval, each currently live"): the live
entries of the level-0 chain restricted to `[low, high]`.  This
definition follows the specification text and is compared against the
walks of the source. -/
def specLiveEntries (s : SkipHash) (low high : Nat) : List (Nat × Nat) :=
  (s.chain.filter (fun i => decide (low ≤ (getNode s i).key ∧ (getNode s i).key ≤ high ∧
    (getNode s i).rTime = 0))).map (fun i => ((getNode s i).key, (getNode s i).value))

/-- Spec-side description of a slow-path scan result at version `v`
("emits a node exactly when the node is not the head sentinel, its key is
in the interval, `iTime < v`, and `rTime = 0` or `rTime ≥ v`").  The head
sentinel is not on the chain, and the visibility formula is `needed`. -/
def specVisibleEntries (s : SkipHash) (low high v : Nat) : List (Nat × Nat) :=
  (s.chain.filter (fun i => decide (low ≤ (getNode s i).key ∧ (getNode s i).key ≤ high ∧
    needed (getNode s i) v))).map (fun i => ((getNode s i).key, (getNode s i).value))

theorem dropWhile_sorted_lb {s : SkipHash} {l : List Nat} {p : Nat → Bool} {low : Nat}
    (hs : l.Pairwise (fun a b => (getNode s a).key ≤ (getNode s b).key))
    (hp : ∀ i, p i = false → low ≤ (getNode s i).key) :
    ∀ i ∈ l.dropWhile p, low ≤ (getNode s i).key := by
  intro i hi
  cases hD : l.dropWhile p with
  | nil => rw [hD] at hi; simp at hi
  | cons d rest =>
    have hd : low ≤ (getNode s d).key := hp d (dropWhile_head_not hD)
    rw [hD] at hi
    rcases List.mem_cons.1 hi with rfl | hi2
    · exact hd
    · have hpair : (d :: rest).Pairwise (fun a b => (getNode s a).key ≤ (getNode s b).key) := by
        rw [← hD]
        exact hs.sublist (List.dropWhile_sublist p)
      exact Nat.le_trans hd ((List.pairwise_cons.1 hpair).1 i hi2)

theorem takeWhile_filter_map_eq {s : SkipHash} {l : List Nat} {high : Nat}
    {p : Nat → Bool} (f : Nat → Nat × Nat)
    (hs : l.Pairwise (fun a b => (getNode s a).key ≤ (getNode s b).key))
    (hhigh : ∀ i, high < (getNode s i).key → p i = false) :
    ((l.takeWhile (fun i => decide ((getNode s i).key ≤ high))).filter p).map f
      = (l.filter p).map f := by
  conv_rhs =>
    rw [← List.takeWhile_append_dropWhile (fun i => decide ((getNode s i).key ≤ high)) l]
  rw [List.filter_append, List.map_append]
  have hnil : (l.dropWhile (fun i => decide ((getNode s i).key ≤ high))).filter p = [] := by
    rw [List.filter_eq_nil_iff]
    intro a ha
    cases hD : l.dropWhile (fun i => decide ((getNode s i).key ≤ high)) with
    | nil => rw [hD] at ha; simp at ha
    | cons d rest =>
      have hd : high < (getNode s d).key := by
        have := dropWhile_head_not hD
        exact Nat.lt_of_not_le (of_decide_eq_false this)
      rw [hD] at ha
      have hak : high < (getNode s a).key := by
        rcases List.mem_cons.1 ha with rfl | ha2
        · exact hd
        · have hpair : (d :: rest).Pairwise (fun a b => (getNode s a).key ≤ (getNode s b).key) := by
            rw [← hD]
            exact hs.sublist (List.dropWhile_sublist _)
          exact Nat.lt_of_lt_of_le hd ((List.pairwise_cons.1 hpair).1 a ha2)
      rw [hhigh a hak]
      simp
  rw [hnil]
  simp

/-- The slow-path hop loop emits exactly the safe nodes with keys up to
`high`, provided the suffix it walks is key-sorted. -/
theorem scanStep_filter (s : SkipHash) (ver high : Nat) :
    ∀ l : List Nat, l.Pairwise (fun a b => (getNode s a).key ≤ (getNode s b).key) →
      scanStep s ver high l
        = (l.filter (fun i => decide ((getNode s i).key ≤ high) &&
            isSafeLocked (getNode s i) ver)).map
            (fun i => ((getNode s i).key, (getNode s i).value))
  | [], _ => by simp [scanStep]
  | id :: rest, h => by
    rw [scanStep]
    by_cases hkh : high < (getNode s id).key
    · rw [if_pos hkh]
      symm
      rw [List.map_eq_nil_iff, List.filter_eq_nil_iff]
      intro a ha
      have hak : high < (getNode s a).key := by
        rcases List.mem_cons.1 ha with rfl | ha2
        · exact hkh
        · exact Nat.lt_of_lt_of_le hkh ((List.pairwise_cons.1 h).1 a ha2)
      rw [decide_eq_false (Nat.not_le_of_lt hak)]
      simp
    · rw [if_neg hkh]
      have hkle : (getNode s id).key ≤ high := Nat.le_of_not_lt hkh
      rw [List.filter_cons]
      rw [decide_eq_true hkle, Bool.true_and]
      have hrest' : (rest.filter (fun i => decide ((getNode s i).key ≤ high) &&
            isSafeLocked (getNode s i) ver)).map
            (fun i => ((getNode s i).key, (getNode s i).value))
          = scanStep s ver high (nextSafeLocked s ver rest) := by
        rw [nextSafeLocked]
        rw [scanStep_filter s ver high (rest.dropWhile (fun i => !(isSafeLocked (getNode s i) ver)))
          ((List.pairwise_cons.1 h).2.sublist (List.dropWhile_sublist _))]
        conv_lhs =>
          rw [← List.takeWhile_append_dropWhile (fun i => !(isSafeLocked (getNode s i) ver)) rest]
        rw [List.filter_append, List.map_append]
        have hnil : (rest.takeWhile (fun i => !(isSafeLocked (getNode s i) ver))).filter
            (fun i => decide ((getNode s i).key ≤ high) && isSafeLocked (getNode s i) ver) = [] := by
          rw [List.filter_eq_nil_iff]
          intro a ha
          have := List.mem_takeWhile_imp ha
          rw [Bool.not_eq_eq_eq_not, Bool.not_true] at this
          rw [this]
          simp
        rw [hnil]
        simp
      by_cases hsafe : isSafeLocked (getNode s id) ver
      · rw [if_pos hsafe, if_pos hsafe, List.map_cons, hrest']
        rfl
      · rw [if_neg hsafe, if_neg hsafe, List.nil_append]
        exact hrest'.symm
termination_by l => l.length
decreasing_by
  simp_wf
  have h2 := dropWhile_length_le (fun i => !(isSafeLocked (getNode s i) ver)) rest
  omega

theorem lowerBound_ge {s : SkipHash} (hwf : WF s) (low : Nat) :
    ∀ i ∈ lowerBoundLocked s low, low ≤ (getNode s i).key := by
  rw [lowerBoundLocked]
  refine dropWhile_sorted_lb hwf.sorted ?_
  intro i hp
  exact Nat.le_of_not_lt (of_decide_eq_false hp)

theorem chain_node_data {s : SkipHash} (hwf : WF s) {i : Nat} (hi : i ∈ s.chain) :
    s.store i = some (getNode s i) := by
  rcases hwf.chain_mem i hi with ⟨nd, hnd, _⟩
  rw [getNode, hnd]
  rfl

/-- `scanStep` reads the state only through the arena. -/
theorem scanStep_store_congr (s t : SkipHash) (hst : s.store = t.store) (ver high : Nat) :
    ∀ l, scanStep s ver high l = scanStep t ver high l
  | [] => by rw [scanStep, scanStep]
  | id :: rest => by
    have hget : ∀ j, getNode s j = getNode t j := by
      intro j
      rw [getNode, getNode, hst]
    rw [scanStep, scanStep, hget id]
    by_cases hkh : high < (getNode t id).key
    · rw [if_pos hkh, if_pos hkh]
    · rw [if_neg hkh, if_neg hkh]
      have hnext : nextSafeLocked s ver rest = nextSafeLocked t ver rest := by
        rw [nextSafeLocked, nextSafeLocked]
        congr 1
        funext j
        rw [hget j]
      rw [hnext, scanStep_store_congr s t hst ver high (nextSafeLocked t ver rest)]
termination_by l => l.length
decreasing_by
  simp_wf
  have h2 := dropWhile_length_le (fun i => !(isSafeLocked (getNode t i) ver)) rest
  rw [nextSafeLocked]
  omega

theorem rangeFast_walk_eq {s : SkipHash} (hwf : WF s) (low high : Nat) :
    (((lowerBoundLocked s low).takeWhile (fun id => decide ((getNode s id).key ≤ high))).filter
        (fun id => (getNode s id).rTime == 0)).map
        (fun id => ((getNode s id).key, (getNode s id).value))
      = specLiveEntries s low high := by
  have hB : (lowerBoundLocked s low).Pairwise
      (fun a b => (getNode s a).key ≤ (getNode s b).key) := by
    refine hwf.sorted.sublist ?_
    rw [lowerBoundLocked]
    exact List.dropWhile_sublist _
  have hchain : s.chain
      = s.chain.takeWhile (fun i => decide ((getNode s i).key < low)) ++ lowerBoundLocked s low :=
    (List.takeWhile_append_dropWhile _ _).symm
  rw [specLiveEntries]
  conv_rhs => rw [hchain]
  rw [List.filter_append, List.map_append]
  have hA : (s.chain.takeWhile (fun i => decide ((getNode s i).key < low))).filter
      (fun i => decide (low ≤ (getNode s i).key ∧ (getNode s i).key ≤ high ∧
        (getNode s i).rTime = 0)) = [] := by
    rw [List.filter_eq_nil_iff]
    intro a ha
    have hlt : (getNode s a).key < low := by simpa using List.mem_takeWhile_imp ha
    intro hcon
    have hc2 : low ≤ (getNode s a).key ∧ (getNode s a).key ≤ high ∧
        (getNode s a).rTime = 0 := of_decide_eq_true hcon
    exact absurd hc2.1 (Nat.not_le_of_lt hlt)
  rw [hA, List.map_nil, List.nil_append]
  rw [← takeWhile_filter_map_eq (fun id => ((getNode s id).key, (getNode s id).value)) hB ?hh]
  case hh =>
    intro i hi
    have hn : ¬ (low ≤ (getNode s i).key ∧ (getNode s i).key ≤ high ∧
        (getNode s i).rTime = 0) := by
      intro hcon
      exact absurd hcon.2.1 (Nat.not_le_of_lt hi)
    exact decide_eq_false hn
  congr 1
  refine List.filter_congr ?_
  intro a ha
  have haB : a ∈ lowerBoundLocked s low := (List.takeWhile_sublist _).subset ha
  have hlow : low ≤ (getNode s a).key := lowerBound_ge hwf low a haB
  have hhigh : (getNode s a).key ≤ high := by simpa using List.mem_takeWhile_imp ha
  rw [Bool.eq_iff_iff]
  simp only [beq_iff_eq, decide_eq_true_eq]
  constructor
  · intro hr
    exact ⟨hlow, hhigh, hr⟩
  · intro hcon
    exact hcon.2.2

theorem rangeSlow_walk_eq {s : SkipHash} (hwf : WF s) (low high : Nat) :
    (rangeSlow s low high).1 = specLiveEntries s low high := by
  have hB : (lowerBoundLocked s low).Pairwise
      (fun a b => (getNode s a).key ≤ (getNode s b).key) := by
    refine hwf.sorted.sublist ?_
    rw [lowerBoundLocked]
    exact List.dropWhile_sublist _
  have hstart_sub : List.Sublist (firstLiveGELocked s low) s.chain := by
    rw [firstLiveGELocked]
    refine List.Sublist.trans (List.dropWhile_sublist _) ?_
    rw [lowerBoundLocked]
    exact List.dropWhile_sublist _
  have hstart : (firstLiveGELocked s low).Pairwise
      (fun a b => (getNode s a).key ≤ (getNode s b).key) := hwf.sorted.sublist hstart_sub
  have h1 : (rangeSlow s low high).1
      = scanStep { s with rqc := (onRangeLocked s.rqc).2 } (onRangeLocked s.rqc).1 high
          (firstLiveGELocked s low) := rfl
  rw [h1, scanStep_store_congr { s with rqc := (onRangeLocked s.rqc).2 } s rfl _ _ _]
  rw [scanStep_filter s _ high (firstLiveGELocked s low) hstart]
  have hsafe_live : ∀ a ∈ s.chain,
      isSafeLocked (getNode s a) (onRangeLocked s.rqc).1 = ((getNode s a).rTime == 0) := by
    intro a ha
    have hdata := chain_node_data hwf ha
    have hi := hwf.stamp_i a (getNode s a) hdata
    have hr := hwf.stamp_r a (getNode s a) hdata
    rw [isSafeLocked]
    have hv : (onRangeLocked s.rqc).1 = s.rqc.counter + 1 := rfl
    rw [hv]
    rw [decide_eq_true (by omega : (getNode s a).iTime < s.rqc.counter + 1)]
    rw [decide_eq_false (by omega : ¬ (s.rqc.counter + 1 ≤ (getNode s a).rTime))]
    rw [Bool.true_and, Bool.or_false]
  have hchain : s.chain
      = s.chain.takeWhile (fun i => decide ((getNode s i).key < low)) ++ lowerBoundLocked s low :=
    (List.takeWhile_append_dropWhile _ _).symm
  have hBsplit : lowerBoundLocked s low
      = (lowerBoundLocked s low).takeWhile (fun i => !((getNode s i).rTime == 0))
        ++ firstLiveGELocked s low := by
    rw [firstLiveGELocked]
    exact (List.takeWhile_append_dropWhile _ _).symm
  rw [specLiveEntries]
  conv_rhs => rw [hchain, List.filter_append, List.map_append]
  have hA : (s.chain.takeWhile (fun i => decide ((getNode s i).key < low))).filter
      (fun i => decide (low ≤ (getNode s i).key ∧ (getNode s i).key ≤ high ∧
        (getNode s i).rTime = 0)) = [] := by
    rw [List.filter_eq_nil_iff]
    intro a ha
    have hlt : (getNode s a).key < low := by simpa using List.mem_takeWhile_imp ha
    intro hcon
    have hc2 : low ≤ (getNode s a).key ∧ (getNode s a).key ≤ high ∧
        (getNode s a).rTime = 0 := of_decide_eq_true hcon
    exact absurd hc2.1 (Nat.not_le_of_lt hlt)
  rw [hA, List.map_nil, List.nil_append]
  conv_rhs => rw [hBsplit, List.filter_append, List.map_append]
  have hT : ((lowerBoundLocked s low).takeWhile (fun i => !((getNode s i).rTime == 0))).filter
      (fun i => decide (low ≤ (getNode s i).key ∧ (getNode s i).key ≤ high ∧
        (getNode s i).rTime = 0)) = [] := by
    rw [List.filter_eq_nil_iff]
    intro a ha
    have htomb := List.mem_takeWhile_imp ha
    rw [Bool.not_eq_eq_eq_not, Bool.not_true, beq_eq_false_iff_ne] at htomb
    simp only [decide_eq_true_eq]
    intro hcon
    exact absurd hcon.2.2 htomb
  rw [hT, List.map_nil, List.nil_append]
  congr 1
  refine List.filter_congr ?_
  intro a ha
  have haB : a ∈ lowerBoundLocked s low := by
    rw [hBsplit]
    exact List.mem_append.2 (Or.inr ha)
  have hachain : a ∈ s.chain := hstart_sub.subset ha
  have hlow : low ≤ (getNode s a).key := lowerBound_ge hwf low a haB
  rw [hsafe_live a hachain]
  rw [Bool.eq_iff_iff]
  simp only [Bool.and_eq_true, beq_iff_eq, decide_eq_true_eq]
  constructor
  · intro hr
    exact ⟨hlow, hr.1, hr.2⟩
  · intro hcon
    exact ⟨hcon.2.1, hcon.2.2⟩

theorem Range_entries {s : SkipHash} (hwf : WF s) (low high : Nat) :
    (Range s low high).1 = if high < low then [] else specLiveEntries s low high := by
  rw [Range]
  by_cases hlh : high < low
  · rw [if_pos hlh, if_pos hlh]
  · rw [if_neg hlh, if_neg hlh]
    rw [rangeFast]
    by_cases htries : 0 < s.fastPathTries
    · rw [if_pos htries]
      exact rangeFast_walk_eq hwf low high
    · rw [if_neg htries]
      exact rangeSlow_walk_eq hwf low high

/-- At the version handed out by `onRangeLocked`, visibility collapses to
liveness: every stamp in a well-formed state is at most the counter, and
the new version is one above it. -/
theorem specVisible_eq_live {s : SkipHash} (hwf : WF s) (low high : Nat) :
    specVisibleEntries s low high (onRangeLocked s.rqc).1 = specLiveEntries s low high := by
  rw [specVisibleEntries, specLiveEntries]
  congr 1
  refine List.filter_congr ?_
  intro a ha
  have hdata := chain_node_data hwf ha
  have hi := hwf.stamp_i a _ hdata
  have hr := hwf.stamp_r a _ hdata
  have hv : (onRangeLocked s.rqc).1 = s.rqc.counter + 1 := rfl
  rw [Bool.eq_iff_iff]
  simp only [decide_eq_true_eq, needed, hv]
  constructor
  · rintro ⟨h1, h2, _, h4⟩
    refine ⟨h1, h2, ?_⟩
    rcases h4 with h0 | hge
    · exact h0
    · omega
  · rintro ⟨h1, h2, h3⟩
    exact ⟨h1, h2, by omega, Or.inl h3⟩

theorem specLive_props {s : SkipHash} (hwf : WF s) (low high : Nat) :
    ((specLiveEntries s low high).map Prod.fst).Pairwise (· < ·)
    ∧ (∀ e ∈ specLiveEntries s low high, low ≤ e.1 ∧ e.1 ≤ high ∧ Get s e.1 = (e.2, true)) := by
  have hFsub : List.Sublist (s.chain.filter (fun i => decide (low ≤ (getNode s i).key ∧
      (getNode s i).key ≤ high ∧ (getNode s i).rTime = 0))) s.chain := List.filter_sublist _
  have hmem_live : ∀ a ∈ s.chain.filter (fun i => decide (low ≤ (getNode s i).key ∧
      (getNode s i).key ≤ high ∧ (getNode s i).rTime = 0)),
      a ∈ s.chain ∧ low ≤ (getNode s a).key ∧ (getNode s a).key ≤ high ∧
        (getNode s a).rTime = 0 := by
    intro a ha
    rcases List.mem_filter.1 ha with ⟨hac, hap⟩
    exact ⟨hac, of_decide_eq_true hap⟩
  constructor
  · rw [specLiveEntries, List.map_map]
    rw [List.pairwise_map]
    have hcomb := (hwf.chain_nodup.sublist hFsub).and (hwf.sorted.sublist hFsub)
    refine hcomb.imp_of_mem ?_
    intro a b ha hb hab
    rcases hmem_live a ha with ⟨hac, _, _, halive⟩
    rcases hmem_live b hb with ⟨hbc, _, _, hblive⟩
    rcases hab with ⟨hne, hle⟩
    rcases Nat.lt_or_ge (getNode s a).key (getNode s b).key with hlt | hge
    · exact hlt
    · exfalso
      have hkeq : (getNode s a).key = (getNode s b).key := Nat.le_antisymm hle hge
      have hia := hwf.live_idx a _ (chain_node_data hwf hac) halive
      have hib := hwf.live_idx b _ (chain_node_data hwf hbc) hblive
      rw [hkeq] at hia
      rw [hia] at hib
      injection hib with he
      exact hne he
  · intro e he
    rw [specLiveEntries] at he
    rcases List.mem_map.1 he with ⟨i, hi, hfe⟩
    rcases hmem_live i hi with ⟨hic, hlo, hhi, hlive⟩
    have hidx := hwf.live_idx i _ (chain_node_data hwf hic) hlive
    subst hfe
    refine ⟨hlo, hhi, ?_⟩
    rw [Get, hidx]

theorem afterRemove_store_rTime (t : SkipHash) (id : Nat) {nd : NodeData}
    (h : t.store id = some nd) :
    ∃ nd2, (afterRemoveLocked t id).store id = some nd2 ∧ nd2.rTime = nd.rTime := by
  rw [afterRemoveLocked]
  cases hlast : t.rqc.ops.getLast? with
  | none =>
    rcases unstitch_store_eq_or t id id with he | ⟨_, nd0, hst0, hupd⟩
    · refine ⟨nd, ?_, rfl⟩
      rw [he, h]
    · rw [hst0] at h
      injection h with h
      subst h
      exact ⟨{ nd0 with unstitched := true }, hupd, rfl⟩
  | some tl =>
    dsimp only
    by_cases hc : tl.ver ≤ (getNode t id).iTime
    · rw [if_pos hc]
      rcases unstitch_store_eq_or t id id with he | ⟨_, nd0, hst0, hupd⟩
      · refine ⟨nd, ?_, rfl⟩
        rw [he, h]
      · rw [hst0] at h
        injection h with h
        subst h
        exact ⟨{ nd0 with unstitched := true }, hupd, rfl⟩
    · rw [if_neg hc]
      exact ⟨nd, h, rfl⟩

theorem afterRemove_counter (t : SkipHash) (id : Nat) :
    (afterRemoveLocked t id).rqc.counter = t.rqc.counter := by
  rw [afterRemoveLocked]
  cases hlast : t.rqc.ops.getLast? with
  | none => rw [unstitch_rqc]
  | some tl =>
    dsimp only
    by_cases hc : tl.ver ≤ (getNode t id).iTime
    · rw [if_pos hc, unstitch_rqc]
    · rw [if_neg hc]

/-- `Remove` stamps the removed node with the current counter value and
leaves the counter itself unchanged. -/
theorem Remove_stamps {s : SkipHash} {k id : Nat} (hid : ilookup s.index k = some id) :
    (∃ nd, (Remove s k).2.store id = some nd ∧ nd.rTime = s.rqc.counter)
    ∧ (Remove s k).2.rqc.counter = s.rqc.counter := by
  rw [Remove, hid]
  constructor
  · have hst1 : ({ s with index := ierase s.index k, store := upd s.store id { getNode s id with rTime := onUpdateLocked s.rqc } } : SkipHash).store id
        = some { getNode s id with rTime := onUpdateLocked s.rqc } := upd_self _ _ _
    rcases afterRemove_store_rTime _ id hst1 with ⟨nd2, hnd2, hr2⟩
    exact ⟨nd2, hnd2, hr2⟩
  · exact afterRemove_counter { s with index := ierase s.index k, store := upd s.store id { getNode s id with rTime := onUpdateLocked s.rqc } } id

def c2state : SkipHash := execOps (New 20 3 []) [Op.insert 5 7, Op.rangeStart]

def c3state : SkipHash := execOps (New 20 3 []) [Op.insert 1 0, Op.remove 1]

def c5state : SkipHash := (Insert (New 20 3 []) 1 10).2

def c6state : SkipHash := (Insert (New 20 3 []) 10 1).2

def c7ops : List Op :=
  [Op.insert 1 1, Op.insert 2 2, Op.insert 3 3, Op.insert 4 4, Op.insert 5 5,
   Op.insert 6 6, Op.insert 7 7, Op.insert 8 8, Op.insert 9 9, Op.insert 10 10,
   Op.remove 2, Op.remove 3, Op.remove 4]

def c7state : SkipHash := execOps (New 20 3 []) c7ops

/-- C1 (counterexample): `onUpdateLocked` does not advance the version
counter.  On the fresh coordinator it returns 1 (the old value, not 2),
and an `Insert` into a fresh container leaves the counter at 1 instead of
advancing it to 2 as the claim requires. -/
theorem C1_counterexample :
    onUpdateLocked newRangeCoordinator ≠ newRangeCoordinator.counter + 1
    ∧ (Insert (New 20 3 []) 5 7).2.rqc.counter ≠ (New 20 3 []).rqc.counter + 1 := by
  constructor
  · decide
  · decide

/-- C1 (amended): `onUpdateLocked` returns the current value of the
counter without advancing it.  `Insert`/`Store` stamp the new node's
`iTime` and `Remove` stamps `rTime` with that current value, the
coordinator is left unchanged at a mutation, and the counter advances by
one only at a range-scan start (`onRangeLocked`). -/
theorem C1_onUpdate_returns_current (r : RangeCoordinator) (s : SkipHash) (k v : Nat) :
    onUpdateLocked r = r.counter
    ∧ (insertNodeLocked s k v).2.store s.nextId = some { key := k, value := v, height := (randomLevelLocked s.maxLevel 1 s.rng).1, iTime := s.rqc.counter, rTime := 0, unstitched := false }
    ∧ (insertNodeLocked s k v).2.rqc = s.rqc
    ∧ (∀ id, ilookup s.index k = some id →
        (∃ nd, (Remove s k).2.store id = some nd ∧ nd.rTime = s.rqc.counter)
        ∧ (Remove s k).2.rqc.counter = s.rqc.counter)
    ∧ (onRangeLocked r).2.counter = r.counter + 1 := by
  refine ⟨rfl, ?_, rfl, ?_, rfl⟩
  · exact upd_self _ _ _
  · intro id hid
    exact Remove_stamps hid

theorem C1_witness :
    (∃ nd, (Remove c5state 1).2.store 2 = some nd ∧ nd.rTime = c5state.rqc.counter)
    ∧ (Remove c5state 1).2.rqc.counter = c5state.rqc.counter :=
  (C1_onUpdate_returns_current newRangeCoordinator c5state 1 10).2.2.2.1 2 (by decide)

/-- C2: for every in-flight range operation with version `v`, every node
with `iTime < v` and (`rTime = 0` or `rTime ≥ v`) is on the level-0 chain
(reachable from the head sentinel), in every reachable state, i.e. after
any interleaving of mutations, scan starts and scan retirements. -/
theorem C2_inflight_reachability {s : SkipHash} (hr : Reachable s) :
    ∀ op ∈ s.rqc.ops, ∀ id nd, s.store id = some nd →
      nd.iTime < op.ver → (nd.rTime = 0 ∨ op.ver ≤ nd.rTime) → id ∈ s.chain := by
  intro op hop id nd hnd h1 h2
  exact (wf_reachable hr).reach op hop id nd hnd ⟨h1, h2⟩

theorem C2_witness : 2 ∈ c2state.chain :=
  C2_inflight_reachability ⟨20, 3, [], [Op.insert 5 7, Op.rangeStart], rfl⟩
    { ver := 2, deferred := [] } (by decide) 2
    { key := 5, value := 7, height := 1, iTime := 1, rTime := 0, unstitched := false }
    (by decide) (by decide) (by decide)

/-- C3 (counterexample): after `Insert 1` then `Remove 1` on a fresh
container both stamps equal 1, so `iTime < rTime` fails for a node with
`rTime ≠ 0`. -/
theorem C3_counterexample :
    ∃ nd, c3state.store 2 = some nd ∧ nd.rTime ≠ 0 ∧ ¬ nd.iTime < nd.rTime := by
  refine ⟨{ key := 1, value := 0, height := 1, iTime := 1, rTime := 1, unstitched := true },
    ?_, ?_, ?_⟩
  · decide
  · decide
  · decide

/-- C3 (amended): in every reachable state, every node with `rTime ≠ 0`
satisfies `iTime ≤ rTime` (equality occurs when the insertion and the
removal happen under the same counter value, i.e. with no intervening
range-scan start). -/
theorem C3_stamp_order {s : SkipHash} (hr : Reachable s) :
    ∀ id nd, s.store id = some nd → nd.rTime ≠ 0 → nd.iTime ≤ nd.rTime := by
  intro id nd hnd hne
  exact (wf_reachable hr).stamp_ir id nd hnd hne

theorem C3_witness : (1 : Nat) ≤ 1 :=
  C3_stamp_order ⟨20, 3, [], [Op.insert 1 0, Op.remove 1], rfl⟩ 2
    { key := 1, value := 0, height := 1, iTime := 1, rTime := 1, unstitched := true }
    (by decide) (by decide)

/-- C4: the slow-path scan with the version `v` obtained from
`onRangeLocked` emits exactly the entries of chain nodes (the head
sentinel is not on the chain) whose key lies in `[low, high]` and which
satisfy `iTime < v ∧ (rTime = 0 ∨ rTime ≥ v)` — the `needed` predicate,
i.e. exactly the keys live at version `v`. -/
theorem C4_slow_path_visibility {s : SkipHash} (hr : Reachable s) (low high : Nat) :
    (rangeSlow s low high).1 = specVisibleEntries s low high (onRangeLocked s.rqc).1 := by
  have hwf := wf_reachable hr
  rw [rangeSlow_walk_eq hwf low high, specVisible_eq_live hwf low high]

theorem C4_witness :
    (rangeSlow c7state 1 6).1 = specVisibleEntries c7state 1 6 (onRangeLocked c7state.rqc).1 :=
  C4_slow_path_visibility ⟨20, 3, [], c7ops, rfl⟩ 1 6

/-- C5: `Store` on a present key overwrites only the value field of the
existing node in place and returns false — key, stamps, height,
unstitched flag, the chain (so the node's position), the index, the size
and the coordinator are all unchanged; on an absent key it is the same
computation as `Insert` and returns true. -/
theorem C5_store_frame {s : SkipHash} (hr : Reachable s) (k v : Nat) :
    (∀ id, ilookup s.index k = some id →
      (Store s k v).1 = false
      ∧ (∃ nd, s.store id = some nd ∧ (Store s k v).2.store id = some { nd with value := v })
      ∧ (∀ j, j ≠ id → (Store s k v).2.store j = s.store j)
      ∧ (Store s k v).2.chain = s.chain
      ∧ (Store s k v).2.index = s.index
      ∧ (Store s k v).2.len = s.len
      ∧ (Store s k v).2.rqc = s.rqc)
    ∧ (ilookup s.index k = none → Store s k v = Insert s k v ∧ (Store s k v).1 = true) := by
  constructor
  · intro id hid
    have hwf := wf_reachable hr
    rcases hwf.idx_live k id hid with ⟨nd0, hst0, _, _⟩
    have hgn : getNode s id = nd0 := by rw [getNode, hst0]; rfl
    rw [Store, hid]
    refine ⟨rfl, ⟨nd0, hst0, ?_⟩, ?_, rfl, rfl, rfl, rfl⟩
    · show upd s.store id { getNode s id with value := v } id = some { nd0 with value := v }
      rw [upd_self, hgn]
    · intro j hj
      exact upd_ne _ _ _ _ hj
  · intro hid
    rw [Store, Insert, hid]
    exact ⟨rfl, rfl⟩

theorem C5_witness : (Store c5state 1 99).1 = false :=
  ((C5_store_frame ⟨20, 3, [], [Op.insert 1 10], rfl⟩ 1 99).1 2 (by decide)).1

/-- C6: `Insert` of a key already in the index returns false and leaves
the container state completely unchanged; in particular the stored value
for the key is not overwritten by a second `Insert`. -/
theorem C6_insert_existing_noop (s : SkipHash) (k v : Nat)
    (h : ilookup s.index k ≠ none) :
    Insert s k v = (false, s) ∧ Get (Insert s k v).2 k = Get s k := by
  rw [Insert]
  cases hl : ilookup s.index k with
  | none => exact absurd hl h
  | some id => exact ⟨rfl, rfl⟩

theorem C6_witness :
    Insert c6state 10 99 = (false, c6state) ∧ Get (Insert c6state 10 99).2 10 = Get c6state 10 :=
  C6_insert_existing_noop c6state 10 99 (by decide)

/-- C7: on every reachable state with `low ≤ high`, `Range` returns
entries with strictly increasing keys (hence no duplicates), each in
`[low, high]` and each currently live (`Get` finds the key with exactly
the returned value); in particular inserting keys 1..10, removing 2..4
and scanning `[1, 6]` yields exactly the keys `[1, 5, 6]`. -/
theorem C7_range_properties :
    (∀ s low high, Reachable s → low ≤ high →
      ((Range s low high).1.map Prod.fst).Pairwise (· < ·)
      ∧ ((Range s low high).1.map Prod.fst).Nodup
      ∧ (∀ e ∈ (Range s low high).1, low ≤ e.1 ∧ e.1 ≤ high ∧ Get s e.1 = (e.2, true)))
    ∧ (Range c7state 1 6).1.map Prod.fst = [1, 5, 6] := by
  constructor
  · intro s low high hr hlh
    have hwf := wf_reachable hr
    have hre : (Range s low high).1 = specLiveEntries s low high := by
      rw [Range_entries hwf low high, if_neg (Nat.not_lt.2 hlh)]
    rcases specLive_props hwf low high with ⟨hsorted, hprops⟩
    refine ⟨?_, ?_, ?_⟩
    · rw [hre]
      exact hsorted
    · rw [hre]
      exact hsorted.imp (fun hab => Nat.ne_of_lt hab)
    · intro e he
      rw [hre] at he
      exact hprops e he
  · decide

theorem C7_witness :
    ((Range c7state 1 6).1.map Prod.fst).Pairwise (· < ·)
    ∧ ((Range c7state 1 6).1.map Prod.fst).Nodup
    ∧ (∀ e ∈ (Range c7state 1 6).1, 1 ≤ e.1 ∧ e.1 ≤ 6 ∧ Get c7state e.1 = (e.2, true)) :=
  C7_range_properties.1 c7state 1 6 ⟨20, 3, [], c7ops, rfl⟩ (by decide)

/-- C8: in every reachable state the size equals the number of present
keys: `Len` equals the length of the index key list, that list has no
duplicates and enumerates exactly the keys on which `Get` reports
present, and the size is never negative. -/
theorem C8_len_live_count {s : SkipHash} (hr : Reachable s) :
    Len s = ((s.index.map Prod.fst).length : Int)
    ∧ (s.index.map Prod.fst).Nodup
    ∧ (∀ k, (Get s k).2 = true ↔ k ∈ s.index.map Prod.fst)
    ∧ 0 ≤ Len s := by
  have hwf := wf_reachable hr
  have hlen : Len s = ((s.index.map Prod.fst).length : Int) := by
    rw [Len, hwf.len_eq, List.length_map]
  refine ⟨hlen, hwf.idx_nodup, ?_, ?_⟩
  · intro k
    rw [Get]
    cases hl : ilookup s.index k with
    | none =>
      simp only [Bool.false_eq_true, false_iff]
      exact ilookup_eq_none.1 hl
    | some id =>
      simp only [true_iff]
      exact List.mem_map.2 ⟨(k, id), ilookup_mem hl, rfl⟩
  · rw [hlen]
    exact Int.natCast_nonneg _

theorem C8_witness : 0 ≤ Len c7state :=
  (C8_len_live_count ⟨20, 3, [], c7ops, rfl⟩).2.2.2

/-- C9: an inverted interval (`low > high`) makes `Range` return the
empty result with the state unchanged, and makes `RangeCount` return 0
(`RangeCount` is a pure read: it takes the state and returns only the
count). -/
theorem C9_inverted_range (s : SkipHash) (low high : Nat) (h : high < low) :
    Range s low high = ([], s) ∧ RangeCount s low high = 0 := by
  rw [Range, RangeCount, if_pos h, if_pos h]
  exact ⟨rfl, rfl⟩

theorem C9_witness :
    Range c7state 6 1 = ([], c7state) ∧ RangeCount c7state 6 1 = 0 :=
  C9_inverted_range c7state 6 1 (by decide)

/-- C10: `unstitchNodeLocked` protects the sentinels and is idempotent:
applied to a nil pointer, to the head or tail sentinel, or to a node
whose unstitched flag is already set it leaves the whole state unchanged,
and applying it twice to the same node equals applying it once. -/
theorem C10_unstitch_guards (s : SkipHash) (id : Nat) :
    unstitchNodeLocked s none = s
    ∧ unstitchNodeLocked s (some headId) = s
    ∧ unstitchNodeLocked s (some tailId) = s
    ∧ (∀ nd, s.store id = some nd → nd.unstitched = true →
        unstitchNodeLocked s (some id) = s)
    ∧ unstitchNodeLocked (unstitchNodeLocked s (some id)) (some id)
        = unstitchNodeLocked s (some id) := by
  refine ⟨rfl, ?_, ?_, ?_, ?_⟩
  · simp [unstitchNodeLocked]
  · simp [unstitchNodeLocked]
  · intro nd hnd hft
    rcases unstitch_cases s id with h | ⟨nd0, hst0, hfl0, _, _, _⟩
    · exact h
    · rw [hst0] at hnd
      injection hnd with he
      rw [← he] at hft
      rw [hfl0] at hft
      exact absurd hft (by simp)
  · rcases unstitch_cases s id with h | ⟨nd0, hst0, hfl0, hh, ht, h⟩
    · rw [h, h]
    · rw [h]
      have hst2 : ({ s with chain := s.chain.erase id, store := upd s.store id { nd0 with unstitched := true } } : SkipHash).store id = some { nd0 with unstitched := true } := upd_self _ _ _
      rcases unstitch_cases { s with chain := s.chain.erase id, store := upd s.store id { nd0 with unstitched := true } } id with h2 | ⟨nd1, hst1, hfl1, _, _, _⟩
      · exact h2
      · rw [hst2] at hst1
        injection hst1 with he
        rw [← he] at hfl1
        simp at hfl1

theorem C10_witness : unstitchNodeLocked c3state (some 2) = c3state :=
  (C10_unstitch_guards c3state 2).2.2.2.1
    { key := 1, value := 0, height := 1, iTime := 1, rTime := 1, unstitched := true }
    (by decide) (by decide)

end Skiphash
